import Mathlib

/-!
Verification development for a Rust scan-conversion library (`src/algo.rs`).

The source operates on `egui::Pos2` (pairs of `f32`) and emits pixel lists
(`Vec<Pos2>` with integral coordinates, or `Vec<AntialiasedPixel>` where
`AntialiasedPixel = (i32, i32, f32)`).

Modelling conventions:
* Finite `f32` values are modelled as exact rationals (`ℚ`); rounding error
  and overflow of `f32` arithmetic are idealised away.
* `NaN` propagation is modelled faithfully by the type `F` below (a rational
  extended with a `nan` element).  In this code base every division whose
  divisor can be `0` also has dividend `0` (checked against the source), so
  `0/0 → NaN` is the only IEEE special value reachable from finite inputs and
  `F` is an adequate float model for these algorithms.
* Rust `f32::round` rounds half away from zero (`rhaz` below);
  `v.round() as i32` (resp. `v.floor() as i32`) of a `NaN` is `0` in Rust,
  which `F.roundI` / `F.floorI` reproduce.
* The `Logger` parameter only formats trace strings; the number of trace
  messages for the curve evaluator is modelled by `castle_pitway_logCount`.
* The unbounded `loop`/`while` constructs of the source are modelled with
  explicit fuel; the fuel chosen is justified by the termination theorems.
-/

/-- Rust's `f32::round()` on a finite value: round half away from zero,
as an integer (composed with the exact `as i32` cast of an integral float). -/
def rhaz (q : ℚ) : ℤ := if 0 ≤ q then ⌊q + 1/2⌋ else -⌊-q + 1/2⌋

/-- Partial model of `f32`: an exact rational or `NaN`.  Infinities are not
representable; they are unreachable from finite inputs in this code base. -/
inductive F where
  | nan : F
  | val : ℚ → F
deriving DecidableEq, Repr

namespace F

def add : F → F → F
  | val a, val b => val (a + b)
  | _, _ => nan

def sub : F → F → F
  | val a, val b => val (a - b)
  | _, _ => nan

def mul : F → F → F
  | val a, val b => val (a * b)
  | _, _ => nan

/-- Division; `x / 0` is `NaN`.  (IEEE gives `±inf` for nonzero `x`, but in
the modelled code every division by zero has a zero dividend.) -/
def div : F → F → F
  | val a, val b => if b = 0 then nan else val (a / b)
  | _, _ => nan

/-- Model of `f32::floor`, staying a float. -/
def ffloor : F → F
  | val a => val ⌊a⌋
  | nan => nan

/-- Model of `v.round() as i32`; Rust saturating casts send `NaN` to `0`. -/
def roundI : F → ℤ
  | val a => rhaz a
  | nan => 0

/-- Model of `v.floor() as i32`; Rust saturating casts send `NaN` to `0`. -/
def floorI : F → ℤ
  | val a => ⌊a⌋
  | nan => 0

end F

/-- The result element type of the antialiasing algorithms, mirroring
`pub type AntialiasedPixel = (i32, i32, f32)`. -/
abbrev AntialiasedPixel := ℤ × ℤ × F

/-- The inclusive integer range `lo..=hi` of a Rust `for` loop
(empty when `hi < lo`). -/
def intRange (lo hi : ℤ) : List ℤ :=
  (List.range (hi + 1 - lo).toNat).map (fun (i : ℕ) => lo + (i : ℤ))

/-- Model of `step_by_step` (the `Пошаговый` line algorithm): picks the
dominant axis by `dx.abs() > dy.abs()`, solves the line equation and rounds
the dependent coordinate for each integer along the dominant axis.
Slope and intercept are computed in `F` because the `else` branch divides by
`dy`, which is `0` exactly when both endpoints coincide (then `k = 0/0 = NaN`). -/
def step_by_step (p1 p2 : ℚ × ℚ) : List (ℤ × ℤ) :=
  let dx := p2.1 - p1.1
  let dy := p2.2 - p1.2
  if |dy| < |dx| then
    let k := F.div (F.val dy) (F.val dx)
    let b := F.sub (F.val p1.2) (F.mul k (F.val p1.1))
    let startX := if p1.1 < p2.1 then p1.1 else p2.1
    let endX := if p1.1 < p2.1 then p2.1 else p1.1
    (intRange (rhaz startX) (rhaz endX)).map fun (x : ℤ) =>
      (x, F.roundI (F.add (F.mul k (F.val (x : ℚ))) b))
  else
    let k := F.div (F.val dx) (F.val dy)
    let b := F.sub (F.val p1.1) (F.mul k (F.val p1.2))
    let startY := if p1.2 < p2.2 then p1.2 else p2.2
    let endY := if p1.2 < p2.2 then p2.2 else p1.2
    (intRange (rhaz startY) (rhaz endY)).map fun (y : ℤ) =>
      (F.roundI (F.add (F.mul k (F.val (y : ℚ))) b), y)

/-- The `for i in 0..=steps.round() as u32` loop of `dda`: one pixel per
iteration, state `(x, y)` incremented afterwards.  The fuel is the iteration
count `steps.round() + 1`. -/
def ddaLoop (xinc yinc : F) : ℕ → F → F → List (ℤ × ℤ)
  | 0, _, _ => []
  | n+1, x, y => (F.roundI x, F.roundI y) :: ddaLoop xinc yinc n (F.add x xinc) (F.add y yinc)

/-- Model of `dda` (the ЦДА line algorithm).  `steps = max(|dx|, |dy|)`;
the increments `dx/steps`, `dy/steps` are `NaN` when the endpoints coincide
(`0/0`), which is harmless because the single pixel is pushed before the
first increment. -/
def dda (p1 p2 : ℚ × ℚ) : List (ℤ × ℤ) :=
  let dx := p2.1 - p1.1
  let dy := p2.2 - p1.2
  let steps := if |dy| < |dx| then |dx| else |dy|
  let xinc := F.div (F.val dx) (F.val steps)
  let yinc := F.div (F.val dy) (F.val steps)
  ddaLoop xinc yinc ((rhaz steps).toNat + 1) (F.val p1.1) (F.val p1.2)

/-- The unbounded `loop` of `bresenham_line`, with fuel.  Returns `none` when
fuel runs out (the termination theorem shows it never does with the fuel used
by `bresenham_line`).  Exactly one pixel is consed per iteration; the break
test happens after the push, and both step tests compare `e2 = 2*err` taken
at the head of the iteration. -/
def bresLoop (x2 y2 dx dy sx sy : ℤ) : ℕ → ℤ → ℤ → ℤ → Option (List (ℤ × ℤ))
  | 0, _, _, _ => none
  | n+1, x1, y1, err =>
    if x1 = x2 ∧ y1 = y2 then some [(x1, y1)]
    else
      let e2 := 2 * err
      let xe := if dy ≤ e2 then (x1 + sx, err + dy) else (x1, err)
      let ye := if e2 ≤ dx then (y1 + sy, xe.2 + dx) else (y1, xe.2)
      (bresLoop x2 y2 dx dy sx sy n xe.1 ye.1 ye.2).map (fun l => (x1, y1) :: l)

/-- Model of `bresenham_line`: endpoints are rounded up front, then the
integer-only error loop runs.  `dx = |x2-x1| ≥ 0`, `dy = -|y2-y1| ≤ 0`,
initial `err = dx + dy`.  Fuel `max dx (-dy) + 1` is exactly the number of
iterations (proved below). -/
def bresenham_line (p1 p2 : ℚ × ℚ) : List (ℤ × ℤ) :=
  let x1 := rhaz p1.1
  let y1 := rhaz p1.2
  let x2 := rhaz p2.1
  let y2 := rhaz p2.2
  let dx := |x2 - x1|
  let sx : ℤ := if x1 < x2 then 1 else -1
  let dy := -|y2 - y1|
  let sy : ℤ := if y1 < y2 then 1 else -1
  (bresLoop x2 y2 dx dy sx sy ((max dx (-dy)).toNat + 1) x1 y1 (dx + dy)).getD []

/-- The `while y >= x` octant loop of `bresenham_circle`, with fuel.  Each
iteration pushes the 8 reflections, then increments `x` and updates the
decision variable `d` (the source updates `x`, and possibly `y`, before the
`4*(x-y)+10` / `4*x+6` term is computed). -/
def circleLoop (cx cy : ℤ) : ℕ → ℤ → ℤ → ℤ → List (ℤ × ℤ)
  | 0, _, _, _ => []
  | n+1, x, y, d =>
    if x ≤ y then
      [(cx + x, cy + y), (cx - x, cy + y), (cx + x, cy - y), (cx - x, cy - y),
       (cx + y, cy + x), (cx - y, cy + x), (cx + y, cy - x), (cx - y, cy - x)]
      ++ (if 0 < d then circleLoop cx cy n (x + 1) (y - 1) (d + 4 * ((x + 1) - (y - 1)) + 10)
          else circleLoop cx cy n (x + 1) y (d + 4 * (x + 1) + 6))
    else []

/-- Model of `bresenham_circle`: center and radius rounded to integers,
state `x = 0`, `y = r`, `d = 3 - 2r`.  `x` grows by one per iteration and the
loop requires `x ≤ y ≤ r`, so `r.toNat + 2` fuel always suffices. -/
def bresenham_circle (center : ℚ × ℚ) (radius : ℚ) : List (ℤ × ℤ) :=
  let cx := rhaz center.1
  let cy := rhaz center.2
  let r := rhaz radius
  circleLoop cx cy (r.toNat + 2) 0 r (3 - 2 * r)

/-- `egui` `Pos2::lerp`: componentwise `a + t * (b - a)` (exact rationals:
no division occurs in the curve evaluator except by the constant 1000). -/
def lerpP (a b : ℚ × ℚ) (t : ℚ) : ℚ × ℚ := (a.1 + t * (b.1 - a.1), a.2 + t * (b.2 - a.2))

/-- The `while temp_points.len() > 1` collapse of `castle_pitway`:
`windows(2).map(|p| p[0].lerp(p[1], t))`, with fuel (the initial list length
suffices since each pass shortens the list by one). -/
def collapse : ℕ → List (ℚ × ℚ) → ℚ → List (ℚ × ℚ)
  | 0, l, _ => l
  | n+1, l, t =>
    if 1 < l.length then collapse n (List.zipWith (fun a b => lerpP a b t) l l.tail) t else l

/-- One iteration of the `for i in 0..=steps` loop of `castle_pitway`:
evaluate `t = i/1000`, collapse the control polygon to a single point, round
it, and append the pixel only if not already present. -/
def castleStep (points : List (ℚ × ℚ)) (acc : List (ℤ × ℤ)) (i : ℕ) : List (ℤ × ℤ) :=
  let t : ℚ := (i : ℚ) / 1000
  match (collapse points.length points t).head? with
  | none => acc
  | some p =>
    let pix := (rhaz p.1, rhaz p.2)
    if pix ∈ acc then acc else acc ++ [pix]

/-- Model of `castle_pitway` (the de-Casteljau-style curve evaluator):
returns `[]` for fewer than 2 control points; otherwise runs `castleStep`
for `i in 0..=1000`. -/
def castle_pitway (points : List (ℚ × ℚ)) : List (ℤ × ℤ) :=
  if points.length < 2 then []
  else (List.range 1001).foldl (castleStep points) []

/-- Number of messages `castle_pitway` writes to its trace sink, as a
function of `logger.can_write()`: the early return for fewer than 2 points
skips the loop entirely; otherwise each `i` with `i % 100 == 0` logs once
when the sink accepts writes. -/
def castle_pitway_logCount (points : List (ℚ × ℚ)) (canWrite : Bool) : ℕ :=
  if points.length < 2 then 0
  else ((List.range 1001).filter (fun i => canWrite && i % 100 == 0)).length

/-- The `for x in x0.round()..=x1.round()` loop of `wu_line`: two
antialiased pixels per iteration, then `y += gradient`. -/
def wuLoop (steep : Bool) (g : F) : ℕ → ℤ → F → List AntialiasedPixel
  | 0, _, _ => []
  | n+1, x, y =>
    let frac := F.sub y (F.ffloor y)
    let i1 := F.sub (F.val 1) frac
    let i2 := frac
    (if steep then [(F.floorI y, x, i1), (F.floorI y + 1, x, i2)]
     else [(x, F.floorI y, i1), (x, F.floorI y + 1, i2)])
    ++ wuLoop steep g n (x + 1) (F.add y g)

/-- Model of `wu_line`: swaps axes when steep, orders endpoints by the
dominant coordinate, and guards the gradient division (`dx == 0.0` yields
gradient `1.0`), so no `NaN` arises. -/
def wu_line (p1 p2 : ℚ × ℚ) : List AntialiasedPixel :=
  let s0 : ℚ × ℚ × ℚ × ℚ := (p1.1, p1.2, p2.1, p2.2)
  let steep := |s0.2.2.1 - s0.1| < |s0.2.2.2 - s0.2.1|
  let s1 := if steep then (s0.2.1, s0.1, s0.2.2.2, s0.2.2.1) else s0
  let s2 := if s1.2.2.1 < s1.1 then (s1.2.2.1, s1.2.2.2, s1.1, s1.2.1) else s1
  let dx := s2.2.2.1 - s2.1
  let dy := s2.2.2.2 - s2.2.1
  let gradient := if dx = 0 then F.val 1 else F.div (F.val dy) (F.val dx)
  wuLoop steep gradient ((rhaz s2.2.2.1 - rhaz s2.1 + 1).toNat) (rhaz s2.1) (F.val s2.2.1)

/-- Model of `step_by_step_aa`: same dominant-axis selection and line
equation as `step_by_step`, but emits the floor pixel and floor+1 pixel with
complementary coverages `1 - fractional` / `fractional`. -/
def step_by_step_aa (p1 p2 : ℚ × ℚ) : List AntialiasedPixel :=
  let dx := p2.1 - p1.1
  let dy := p2.2 - p1.2
  if |dy| < |dx| then
    let k := F.div (F.val dy) (F.val dx)
    let b := F.sub (F.val p1.2) (F.mul k (F.val p1.1))
    let startX := if p1.1 < p2.1 then p1.1 else p2.1
    let endX := if p1.1 < p2.1 then p2.1 else p1.1
    (intRange (rhaz startX) (rhaz endX)).flatMap fun (xi : ℤ) =>
      let yIdeal := F.add (F.mul k (F.val (xi : ℚ))) b
      let frac := F.sub yIdeal (F.ffloor yIdeal)
      let y1 := F.floorI yIdeal
      [(xi, y1, F.sub (F.val 1) frac), (xi, y1 + 1, frac)]
  else
    let k := F.div (F.val dx) (F.val dy)
    let b := F.sub (F.val p1.1) (F.mul k (F.val p1.2))
    let startY := if p1.2 < p2.2 then p1.2 else p2.2
    let endY := if p1.2 < p2.2 then p2.2 else p1.2
    (intRange (rhaz startY) (rhaz endY)).flatMap fun (yi : ℤ) =>
      let xIdeal := F.add (F.mul k (F.val (yi : ℚ))) b
      let frac := F.sub xIdeal (F.ffloor xIdeal)
      let x1 := F.floorI xIdeal
      [(x1, yi, F.sub (F.val 1) frac), (x1 + 1, yi, frac)]

/-- The `for _ in 0..=steps.round() as u32` loop of `dda_aa`: two pixels per
iteration on the non-dominant axis, then both ideal coordinates advance. -/
def ddaAALoop (issteep : Bool) (xinc yinc : F) : ℕ → F → F → List AntialiasedPixel
  | 0, _, _ => []
  | n+1, x, y =>
    (if issteep then
      let frac := F.sub x (F.ffloor x)
      let x1 := F.floorI x
      [(x1, F.roundI y, F.sub (F.val 1) frac), (x1 + 1, F.roundI y, frac)]
    else
      let frac := F.sub y (F.ffloor y)
      let y1 := F.floorI y
      [(F.roundI x, y1, F.sub (F.val 1) frac), (F.roundI x, y1 + 1, frac)])
    ++ ddaAALoop issteep xinc yinc n (F.add x xinc) (F.add y yinc)

/-- Model of `dda_aa`: the DDA stepping of `dda` with floor/floor+1 coverage
emission on the non-dominant axis (`is_steep` decided once by `|dy| > |dx|`). -/
def dda_aa (p1 p2 : ℚ × ℚ) : List AntialiasedPixel :=
  let dx := p2.1 - p1.1
  let dy := p2.2 - p1.2
  let steps := if |dy| < |dx| then |dx| else |dy|
  let xinc := F.div (F.val dx) (F.val steps)
  let yinc := F.div (F.val dy) (F.val steps)
  let issteep := |dx| < |dy|
  ddaAALoop issteep xinc yinc ((rhaz steps).toNat + 1) (F.val p1.1) (F.val p1.2)

/-- The shallow (`dx >= dy`) branch loop of `bresenham_aa`, `for _ in 0..=dx`:
intensity `d/dx` is read before the accumulator update
`d += dy; if d >= dx { d -= dx; y += sy }`, and `x += sx` every iteration. -/
def bresAALoopX (dx dy sx sy : ℤ) : ℕ → ℤ → ℤ → ℤ → List AntialiasedPixel
  | 0, _, _, _ => []
  | n+1, d, x, y =>
    let intensity := F.div (F.val (d : ℚ)) (F.val (dx : ℚ))
    (x, y, F.sub (F.val 1) intensity) :: (x, y + sy, intensity) ::
    (if dx ≤ d + dy then bresAALoopX dx dy sx sy n (d + dy - dx) (x + sx) (y + sy)
     else bresAALoopX dx dy sx sy n (d + dy) (x + sx) y)

/-- The steep (`dy > dx`) branch loop of `bresenham_aa`, `for _ in 0..=dy`:
roles of the axes swapped. -/
def bresAALoopY (dx dy sx sy : ℤ) : ℕ → ℤ → ℤ → ℤ → List AntialiasedPixel
  | 0, _, _, _ => []
  | n+1, d, x, y =>
    let intensity := F.div (F.val (d : ℚ)) (F.val (dy : ℚ))
    (x, y, F.sub (F.val 1) intensity) :: (x + sx, y, intensity) ::
    (if dy ≤ d + dx then bresAALoopY dx dy sx sy n (d + dx - dy) (x + sx) (y + sy)
     else bresAALoopY dx dy sx sy n (d + dx) (x) (y + sy))

/-- Model of `bresenham_aa`: endpoints rounded, integer error accumulator
`d` scaled to the dominant span, floating intensity `d/span` per iteration.
When both endpoints round to the same pixel the shallow branch divides `0/0`
and every coverage is `NaN`, exactly as the `f32` source does. -/
def bresenham_aa (p1 p2 : ℚ × ℚ) : List AntialiasedPixel :=
  let x1 := rhaz p1.1
  let y1 := rhaz p1.2
  let x2 := rhaz p2.1
  let y2 := rhaz p2.2
  let dx := |x2 - x1|
  let dy := |y2 - y1|
  let sx : ℤ := if x1 < x2 then 1 else -1
  let sy : ℤ := if y1 < y2 then 1 else -1
  if dy ≤ dx then bresAALoopX dx dy sx sy (dx.toNat + 1) 0 x1 y1
  else bresAALoopY dx dy sx sy (dy.toNat + 1) 0 x1 y1

/-- Check used to formalise C1: a pair of coverage values sums to `1.0`
within `1e-4` tolerance (false when the sum is `NaN`, since IEEE comparisons
with `NaN` are false). -/
def covPairOk (c1 c2 : F) : Bool :=
  match F.add c1 c2 with
  | F.nan => false
  | F.val s => decide (|s - 1| ≤ 1/10000)

/-- Check used to formalise C1: the list consists of consecutive pairs
(even length, two entries per step) whose coverages pass `covPairOk`. -/
def pairsOkB : List AntialiasedPixel → Bool
  | [] => true
  | [_] => false
  | a :: b :: rest => covPairOk a.2.2 b.2.2 && pairsOkB rest

/-- Check used to formalise C9: in each emitted pair of `bresenham_aa`, the
primary pixel's coverage `1 - d/span` lies in `(0, 1]` and the secondary
pixel's coverage (the intensity `d/span`) lies in `[0, 1)`. -/
def covRangesB : List AntialiasedPixel → Bool
  | [] => true
  | [_] => false
  | a :: b :: rest =>
    (match a.2.2 with | F.val q => decide (0 < q ∧ q ≤ 1) | F.nan => false) &&
    (match b.2.2 with | F.val q => decide (0 ≤ q ∧ q < 1) | F.nan => false) &&
    covRangesB rest

/-- `bresLoop` with the state normalised to step counts: `a`/`b` count the
steps taken on the dominant/minor axis (`p`/`q` the corresponding spans).
`bresLoop` is exactly this loop with `x = x1 + a*sx`, `y = y1 + b*sy` (or the
axis-swapped, error-negated mirror for steep lines), proved below. -/
def absLoop (p q : ℤ) : ℕ → ℤ → ℤ → ℤ → Option (List (ℤ × ℤ))
  | 0, _, _, _ => none
  | n+1, a, b, err =>
    if a = p ∧ b = q then some [(a, b)]
    else
      let e2 := 2 * err
      let ae := if -q ≤ e2 then (a + 1, err - q) else (a, err)
      let be := if e2 ≤ p then (b + 1, ae.2 + p) else (b, ae.2)
      (absLoop p q n ae.1 be.1 be.2).map (fun l => (a, b) :: l)

/-- The minor-axis offset Bresenham assigns to dominant-axis step `i`
(spans `p ≥ q ≥ 0`, `p > 0`): the floor of `i*q/p + 1/2`. -/
def bresB (p q i : ℤ) : ℤ := (2 * i * q + p) / (2 * p)

/-! ### Basic lemmas about rounding and ranges -/

theorem rhaz_zero : rhaz 0 = 0 := by norm_num [rhaz]

theorem rhaz_intCast (n : ℤ) : rhaz (n : ℚ) = n := by
  unfold rhaz
  split
  · rw [add_comm, Int.floor_add_int]
    norm_num
  · rw [show -(n : ℚ) + 1/2 = 1/2 + (-n : ℤ) by push_cast; ring, Int.floor_add_int]
    norm_num

theorem rhaz_near (n : ℤ) (v : ℚ) (h : |v - n| < 1/2) : rhaz v = n := by
  rw [abs_sub_lt_iff] at h
  obtain ⟨h1, h2⟩ := h
  unfold rhaz
  split
  · rw [Int.floor_eq_iff]
    constructor
    · linarith
    · linarith
  · have hfl : ⌊-v + 1/2⌋ = -n := by
      rw [Int.floor_eq_iff]
      refine ⟨?_, ?_⟩
      · push_cast
        linarith
      · push_cast
        linarith
    rw [hfl, neg_neg]


theorem intRange_mem (lo hi z : ℤ) : z ∈ intRange lo hi ↔ lo ≤ z ∧ z ≤ hi := by
  unfold intRange
  rw [List.mem_map]
  constructor
  · rintro ⟨i, hi', rfl⟩
    rw [List.mem_range] at hi'
    omega
  · rintro ⟨h1, h2⟩
    refine ⟨(z - lo).toNat, ?_, ?_⟩
    · rw [List.mem_range]
      omega
    · omega

theorem intRange_self (a : ℤ) : intRange a a = [a] := by
  unfold intRange
  rw [show (a + 1 - a).toNat = 1 by omega]
  norm_num [List.range_succ]

theorem intRange_length (lo hi : ℤ) : (intRange lo hi).length = (hi + 1 - lo).toNat := by
  unfold intRange
  rw [List.length_map, List.length_range]

/-! ### Generic dedup-fold facts (for the curve evaluator) -/

theorem foldl_dedup (step : List (ℤ × ℤ) → ℕ → List (ℤ × ℤ))
    (hstep : ∀ acc i, step acc i = acc ∨ ∃ pix, pix ∉ acc ∧ step acc i = acc ++ [pix]) :
    ∀ (l : List ℕ) (acc : List (ℤ × ℤ)), acc.Nodup →
      (l.foldl step acc).Nodup ∧ (l.foldl step acc).length ≤ acc.length + l.length := by
  intro l
  induction l with
  | nil => intro acc h; simpa using h
  | cons i l ih =>
    intro acc h
    rw [List.foldl_cons]
    rcases hstep acc i with heq | ⟨pix, hnot, heq⟩
    · rw [heq]
      obtain ⟨hn, hl⟩ := ih acc h
      refine ⟨hn, ?_⟩
      simp only [List.length_cons]
      omega
    · rw [heq]
      have hacc : (acc ++ [pix]).Nodup := by
        rw [List.nodup_append]
        exact ⟨h, List.nodup_singleton _, by simpa using hnot⟩
      obtain ⟨hn, hl⟩ := ih _ hacc
      refine ⟨hn, ?_⟩
      have h2 : (acc ++ [pix]).length = acc.length + 1 := by
        simp
      rw [h2] at hl
      simp only [List.length_cons]
      omega

theorem circleLoop_stop (cx cy : ℤ) (n : ℕ) (x y d : ℤ) (h : ¬ x ≤ y) :
    circleLoop cx cy (n + 1) x y d = [] := by
  simp only [circleLoop]
  rw [if_neg h]

/-! ### Claim theorems: degenerate and concrete cases -/

/-- C4: on a zero-length line (both endpoints equal), `step_by_step` and
`dda` each run exactly one loop iteration, hence return a single-pixel
result, and `bresenham_line` breaks on its first iteration, returning
exactly the one rounded endpoint.  (For `step_by_step` the single pixel's
x-coordinate is a NaN artifact, but the claim only speaks of its length.) -/
theorem bresLoop_break (x2 y2 dx dy sx sy : ℤ) (n : ℕ) (err : ℤ) :
    bresLoop x2 y2 dx dy sx sy (n + 1) x2 y2 err = some [(x2, y2)] := by
  simp [bresLoop]

theorem claim_C4 (p : ℚ × ℚ) :
    (step_by_step p p).length = 1 ∧ (dda p p).length = 1 ∧
      bresenham_line p p = [(rhaz p.1, rhaz p.2)] := by
  refine ⟨?_, ?_, ?_⟩
  · simp only [step_by_step, sub_self, abs_zero, lt_self_iff_false, if_false,
      intRange_self, List.map_cons, List.map_nil, List.length_cons, List.length_nil]
  · simp only [dda, sub_self, abs_zero, lt_self_iff_false, if_false, rhaz_zero,
      Int.toNat_zero, Nat.zero_add, ddaLoop, List.length_cons, List.length_nil]
  · simp only [bresenham_line, sub_self, abs_zero, neg_zero, max_self, Int.toNat_zero,
      Nat.zero_add, add_zero]
    rw [bresLoop_break]
    rfl

/-- C5: with fewer than 2 control points, `castle_pitway` returns the empty
sequence and writes nothing to the trace sink, for any sink. -/
theorem claim_C5 (points : List (ℚ × ℚ)) (h : points.length < 2) :
    castle_pitway points = [] ∧
      ∀ canWrite, castle_pitway_logCount points canWrite = 0 := by
  constructor
  · rw [castle_pitway, if_pos h]
  · intro cw
    rw [castle_pitway_logCount, if_pos h]

theorem claim_C5_witness :
    ([((1 : ℚ), (2 : ℚ))].length < 2) ∧
      (castle_pitway [((1 : ℚ), (2 : ℚ))] = [] ∧
        ∀ canWrite, castle_pitway_logCount [((1 : ℚ), (2 : ℚ))] canWrite = 0) :=
  ⟨by norm_num, claim_C5 _ (by norm_num)⟩

/-- C6: with at least 2 control points, the `castle_pitway` output has no
two equal pixels (the push is guarded by `contains`) and at most 1001
entries (one candidate per parameter sample `i = 0..=1000`). -/
theorem claim_C6 (points : List (ℚ × ℚ)) (h : 2 ≤ points.length) :
    (castle_pitway points).Nodup ∧ (castle_pitway points).length ≤ 1001 := by
  rw [castle_pitway, if_neg (by omega)]
  have hstep : ∀ (acc : List (ℤ × ℤ)) (i : ℕ),
      castleStep points acc i = acc ∨
        ∃ pix, pix ∉ acc ∧ castleStep points acc i = acc ++ [pix] := by
    intro acc i
    unfold castleStep
    cases hc : (collapse points.length points ((i : ℚ) / 1000)).head? with
    | none => left; simp only [hc]
    | some p =>
      by_cases hmem : (rhaz p.1, rhaz p.2) ∈ acc
      · left; simp only [hc, if_pos hmem]
      · right; exact ⟨_, hmem, by simp only [hc, if_neg hmem]⟩
  have key := foldl_dedup (castleStep points) hstep (List.range 1001) [] List.nodup_nil
  refine ⟨key.1, le_trans key.2 (le_of_eq ?_)⟩
  rw [List.length_nil, List.length_range]

theorem claim_C6_witness :
    2 ≤ ([((0 : ℚ), (0 : ℚ)), ((1 : ℚ), (1 : ℚ))] : List (ℚ × ℚ)).length ∧
      ((castle_pitway [((0 : ℚ), (0 : ℚ)), ((1 : ℚ), (1 : ℚ))]).Nodup ∧
        (castle_pitway [((0 : ℚ), (0 : ℚ)), ((1 : ℚ), (1 : ℚ))]).length ≤ 1001) :=
  ⟨by norm_num, claim_C6 _ (by norm_num)⟩

theorem circle_intInputs (cx cy r : ℤ) :
    bresenham_circle ((cx : ℚ), (cy : ℚ)) ((r : ℚ)) =
      circleLoop cx cy (r.toNat + 2) 0 r (3 - 2 * r) := by
  simp [bresenham_circle, rhaz_intCast]

theorem circle005_eval :
    bresenham_circle (0, 0) 5 = circleLoop 0 0 ((5 : ℤ).toNat + 2) 0 5 (3 - 2 * 5) := by
  rw [show ((0 : ℚ), (0 : ℚ)) = (((0 : ℤ) : ℚ), ((0 : ℤ) : ℚ)) by norm_num,
    show (5 : ℚ) = ((5 : ℤ) : ℚ) by norm_num]
  exact circle_intInputs 0 0 5

/-- C7: the pixel set of `bresenham_circle` with center `(0,0)` and radius
`5` is closed under all eight reflections `(x,y) → (±x, ±y), (±y, ±x)`. -/
theorem claim_C7 : ∀ p ∈ bresenham_circle (0, 0) 5,
    (-p.1, p.2) ∈ bresenham_circle (0, 0) 5 ∧ (p.1, -p.2) ∈ bresenham_circle (0, 0) 5 ∧
    (-p.1, -p.2) ∈ bresenham_circle (0, 0) 5 ∧ (p.2, p.1) ∈ bresenham_circle (0, 0) 5 ∧
    (-p.2, p.1) ∈ bresenham_circle (0, 0) 5 ∧ (p.2, -p.1) ∈ bresenham_circle (0, 0) 5 ∧
    (-p.2, -p.1) ∈ bresenham_circle (0, 0) 5 := by
  rw [circle005_eval]
  decide

theorem claim_C7_witness :
    (((0, 5) : ℤ × ℤ) ∈ bresenham_circle (0, 0) 5) ∧
      ((-(0 : ℤ), (5 : ℤ)) ∈ bresenham_circle (0, 0) 5 ∧
        ((0 : ℤ), -(5 : ℤ)) ∈ bresenham_circle (0, 0) 5 ∧
        (-(0 : ℤ), -(5 : ℤ)) ∈ bresenham_circle (0, 0) 5 ∧
        ((5 : ℤ), (0 : ℤ)) ∈ bresenham_circle (0, 0) 5 ∧
        (-(5 : ℤ), (0 : ℤ)) ∈ bresenham_circle (0, 0) 5 ∧
        ((5 : ℤ), -(0 : ℤ)) ∈ bresenham_circle (0, 0) 5 ∧
        (-(5 : ℤ), -(0 : ℤ)) ∈ bresenham_circle (0, 0) 5) :=
  ⟨by rw [circle005_eval]; decide, claim_C7 (0, 5) (by rw [circle005_eval]; decide)⟩

/-- C10: when the radius rounds to a negative integer, the octant loop
condition `y ≥ x` fails at entry (`y = r < 0 = x`), so `bresenham_circle`
returns the empty sequence for any center. -/
theorem claim_C10 (c : ℚ × ℚ) (radius : ℚ) (h : rhaz radius < 0) :
    bresenham_circle c radius = [] := by
  simp only [bresenham_circle]
  exact circleLoop_stop _ _ _ _ _ _ (by omega)

theorem rhaz_neg3 : rhaz (-3) = -3 := by
  rw [show (-3 : ℚ) = ((-3 : ℤ) : ℚ) by norm_num, rhaz_intCast]

theorem claim_C10_witness :
    rhaz (-3) < 0 ∧ bresenham_circle (1, 2) (-3) = [] :=
  ⟨by rw [rhaz_neg3]; decide, claim_C10 (1, 2) (-3) (by rw [rhaz_neg3]; decide)⟩

/-! ### DDA lemmas and claim C2 -/

theorem F_div_val (a b : ℚ) (hb : b ≠ 0) : F.div (F.val a) (F.val b) = F.val (a / b) := by
  simp [F.div, hb]

theorem rhaz_nonneg (q : ℚ) (h : 0 ≤ q) : 0 ≤ rhaz q := by
  rw [rhaz, if_pos h]
  positivity

theorem ddaLoop_length (xinc yinc : F) : ∀ (n : ℕ) (x y : F),
    (ddaLoop xinc yinc n x y).length = n := by
  intro n
  induction n with
  | zero => intro x y; rfl
  | succ n ih =>
    intro x y
    rw [ddaLoop, List.length_cons, ih]

theorem ddaLoop_val (xi yi : ℚ) : ∀ (n : ℕ) (x y : ℚ),
    ddaLoop (F.val xi) (F.val yi) n (F.val x) (F.val y) =
      (List.range n).map
        (fun (i : ℕ) => (rhaz (x + (i : ℚ) * xi), rhaz (y + (i : ℚ) * yi))) := by
  intro n
  induction n with
  | zero => intro x y; rfl
  | succ n ih =>
    intro x y
    rw [ddaLoop, F.add, F.add, ih (x + xi) (y + yi), List.range_succ_eq_map,
      List.map_cons, List.map_map]
    refine congrArg₂ List.cons ?_ ?_
    · norm_num [F.roundI]
    · refine List.map_congr_left fun i hi => ?_
      simp only [Function.comp_apply]
      push_cast
      ring_nf

theorem range_map_getLast (f : ℕ → ℤ × ℤ) (n : ℕ) :
    ((List.range (n + 1)).map f).getLast? = some (f n) := by
  rw [List.range_succ, List.map_append]
  simp

/-- C2 (amended): `dda` uses `round(max(|dx|,|dy|))` (round half away from
zero) as its step count — not the ceiling — and emits exactly `steps + 1`
pixels, the first being the rounded first endpoint.  The last pixel is the
rounded second endpoint whenever `max(|dx|,|dy|)` is an integer (the
counterexample shows both the ceiling clause and the unconditional
last-endpoint clause fail otherwise). -/
theorem claim_C2_amended (p1 p2 : ℚ × ℚ) (s : ℚ)
    (hs : (if |p2.2 - p1.2| < |p2.1 - p1.1| then |p2.1 - p1.1| else |p2.2 - p1.2|) = s) :
    (dda p1 p2).length = (rhaz s).toNat + 1 ∧
    (dda p1 p2).head? = some (rhaz p1.1, rhaz p1.2) ∧
    (((rhaz s : ℤ) : ℚ) = s → (dda p1 p2).getLast? = some (rhaz p2.1, rhaz p2.2)) := by
  have hs0 : 0 ≤ s := by
    rw [← hs]
    split
    · exact abs_nonneg _
    · exact abs_nonneg _
  refine ⟨?_, ?_, ?_⟩
  · simp only [dda]
    rw [hs, ddaLoop_length]
  · simp only [dda, ddaLoop, List.head?_cons, F.roundI]
  · intro hint
    rcases eq_or_lt_of_le hs0 with h0 | h0
    · have hdx : p2.1 = p1.1 ∧ p2.2 = p1.2 := by
        rw [← hs] at h0
        by_cases hc : |p2.2 - p1.2| < |p2.1 - p1.1|
        · rw [if_pos hc] at h0
          have h1 := abs_nonneg (p2.2 - p1.2)
          exfalso
          rw [← h0] at hc
          linarith
        · rw [if_neg hc] at h0
          push_neg at hc
          have h2 : |p2.2 - p1.2| = 0 := h0.symm
          have h3 : |p2.1 - p1.1| = 0 := le_antisymm (by rw [h2] at hc; exact hc) (abs_nonneg _)
          have h4 := abs_eq_zero.mp h3
          have h5 := abs_eq_zero.mp h2
          constructor
          · linarith
          · linarith
      simp only [dda]
      rw [hs, ← h0, rhaz_zero]
      simp only [Int.toNat_zero, Nat.zero_add, ddaLoop]
      rw [hdx.1, hdx.2]
      rfl
    · have hs0' : s ≠ 0 := ne_of_gt h0
      simp only [dda]
      rw [hs, F_div_val _ _ hs0', F_div_val _ _ hs0', ddaLoop_val, range_map_getLast]
      have hn : (((rhaz s).toNat : ℕ) : ℚ) = s := by
        have h1 : 0 ≤ rhaz s := rhaz_nonneg s hs0
        have h2 : (((rhaz s).toNat : ℕ) : ℤ) = rhaz s := Int.toNat_of_nonneg h1
        calc (((rhaz s).toNat : ℕ) : ℚ) = ((((rhaz s).toNat : ℕ) : ℤ) : ℚ) := by push_cast; ring
          _ = ((rhaz s : ℤ) : ℚ) := by rw [h2]
          _ = s := hint
      rw [hn]
      have hx : p1.1 + s * ((p2.1 - p1.1) / s) = p2.1 := by
        field_simp
      have hy : p1.2 + s * ((p2.2 - p1.2) / s) = p2.2 := by
        field_simp
      rw [hx, hy]

theorem claim_C2_witness :
    ((if |(3 : ℚ) - 0| < |(2 : ℚ) - 0| then |(2 : ℚ) - 0| else |(3 : ℚ) - 0|) = (3 : ℚ)) ∧
      ((rhaz (3 : ℚ) : ℤ) : ℚ) = (3 : ℚ) ∧
      ((dda (0, 0) (2, 3)).length = (rhaz (3 : ℚ)).toNat + 1 ∧
        (dda (0, 0) (2, 3)).head? = some (rhaz (0 : ℚ), rhaz (0 : ℚ)) ∧
        (((rhaz (3 : ℚ) : ℤ) : ℚ) = (3 : ℚ) →
          (dda (0, 0) (2, 3)).getLast? = some (rhaz (2 : ℚ), rhaz (3 : ℚ)))) := by
  have h3 : rhaz (3 : ℚ) = 3 := by
    rw [show (3 : ℚ) = ((3 : ℤ) : ℚ) by norm_num, rhaz_intCast]
  have habs : (if |(3 : ℚ) - 0| < |(2 : ℚ) - 0| then |(2 : ℚ) - 0| else |(3 : ℚ) - 0|)
      = (3 : ℚ) := by
    rw [abs_of_nonneg (by norm_num : (0 : ℚ) ≤ 3 - 0),
      abs_of_nonneg (by norm_num : (0 : ℚ) ≤ 2 - 0)]
    norm_num
  exact ⟨habs, by rw [h3]; norm_num, claim_C2_amended (0, 0) (2, 3) 3 habs⟩

/-- C2 (counterexample): for the endpoints `(3/8, 0)` and `(21/8, 0)` the
larger delta is `9/4`; the code rounds it to `2` and emits 3 pixels ending
at `(2, 0)`, while the claim's ceiling (`3`) would demand 4 pixels, and the
rounded second endpoint is `(3, 0)`, not the emitted last pixel. -/
theorem claim_C2_counterexample :
    (dda ((3 : ℚ)/8, 0) ((21 : ℚ)/8, 0)).length ≠
        ⌈max |(21 : ℚ)/8 - 3/8| |(0 : ℚ) - 0|⌉.toNat + 1 ∧
      (dda ((3 : ℚ)/8, 0) ((21 : ℚ)/8, 0)).getLast? ≠
        some (rhaz ((21 : ℚ)/8), rhaz (0 : ℚ)) := by
  have habs94 : |(21 : ℚ)/8 - 3/8| = 9/4 := by
    rw [abs_of_nonneg (by norm_num : (0 : ℚ) ≤ 21/8 - 3/8)]
    norm_num
  have hsteps : (if |(0 : ℚ) - 0| < |(21 : ℚ)/8 - 3/8| then |(21 : ℚ)/8 - 3/8|
      else |(0 : ℚ) - 0|) = 9/4 := by
    rw [habs94, if_pos (by norm_num)]
  have hr : rhaz ((9 : ℚ)/4) = 2 := by
    refine rhaz_near 2 _ ?_
    rw [abs_sub_lt_iff]
    constructor
    · norm_num
    · norm_num
  constructor
  · have hlen3 : (dda ((3 : ℚ)/8, 0) ((21 : ℚ)/8, 0)).length = 3 := by
      simp only [dda]
      rw [hsteps, hr, ddaLoop_length]
      decide
    rw [hlen3, habs94]
    rw [show |(0 : ℚ) - 0| = 0 by norm_num]
    have hc : ⌈(9 : ℚ)/4⌉ = 3 := by
      rw [Int.ceil_eq_iff]
      constructor
      · norm_num
      · norm_num
    rw [show max ((9 : ℚ)/4) 0 = 9/4 by norm_num, hc]
    decide
  · have hlast : (dda ((3 : ℚ)/8, 0) ((21 : ℚ)/8, 0)).getLast? = some (2, 0) := by
      simp only [dda]
      rw [hsteps, hr, F_div_val _ _ (by norm_num), F_div_val _ _ (by norm_num), ddaLoop_val,
        range_map_getLast]
      rw [show (2 : ℤ).toNat = (2 : ℕ) from rfl]
      have ha : (3 : ℚ)/8 + ((2 : ℕ) : ℚ) * ((21/8 - 3/8) / (9/4)) = 19/8 := by
        norm_num
      have hb : (0 : ℚ) + ((2 : ℕ) : ℚ) * ((0 - 0) / (9/4)) = 0 := by
        norm_num
      rw [ha, hb, rhaz_zero]
      rw [rhaz_near 2 ((19 : ℚ)/8) (by rw [abs_sub_lt_iff]; constructor <;> norm_num)]
    rw [hlast, rhaz_zero]
    rw [rhaz_near 3 ((21 : ℚ)/8) (by rw [abs_sub_lt_iff]; constructor <;> norm_num)]
    decide

/-! ### F computation lemmas and coverage-pair facts -/

@[simp] theorem F.add_val (a b : ℚ) : F.add (F.val a) (F.val b) = F.val (a + b) := rfl

@[simp] theorem F.sub_val (a b : ℚ) : F.sub (F.val a) (F.val b) = F.val (a - b) := rfl

@[simp] theorem F.mul_val (a b : ℚ) : F.mul (F.val a) (F.val b) = F.val (a * b) := rfl

@[simp] theorem F.ffloor_val (a : ℚ) : F.ffloor (F.val a) = F.val (⌊a⌋ : ℚ) := rfl

@[simp] theorem F.roundI_val (a : ℚ) : F.roundI (F.val a) = rhaz a := rfl

@[simp] theorem F.floorI_val (a : ℚ) : F.floorI (F.val a) = ⌊a⌋ := rfl

@[simp] theorem F.add_nan_left (b : F) : F.add F.nan b = F.nan := by cases b <;> rfl

@[simp] theorem F.add_nan_right (a : F) : F.add a F.nan = F.nan := by cases a <;> rfl

@[simp] theorem F.sub_nan_left (b : F) : F.sub F.nan b = F.nan := by cases b <;> rfl

@[simp] theorem F.sub_nan_right (a : F) : F.sub a F.nan = F.nan := by cases a <;> rfl

@[simp] theorem F.mul_nan_left (b : F) : F.mul F.nan b = F.nan := by cases b <;> rfl

@[simp] theorem F.mul_nan_right (a : F) : F.mul a F.nan = F.nan := by cases a <;> rfl

@[simp] theorem F.div_zero_nan (a : ℚ) : F.div (F.val a) (F.val 0) = F.nan := by
  simp [F.div]

@[simp] theorem F.ffloor_nan : F.ffloor F.nan = F.nan := rfl

@[simp] theorem F.roundI_nan : F.roundI F.nan = 0 := rfl

@[simp] theorem F.floorI_nan : F.floorI F.nan = 0 := rfl

theorem covPairOk_complement (t f : ℚ) (h : t = 1 - f) :
    covPairOk (F.val t) (F.val f) = true := by
  simp only [covPairOk, F.add_val, h]
  rw [show (1 : ℚ) - f + f = 1 by ring]
  norm_num

theorem pairsOkB_cons_cons (a b : AntialiasedPixel) (rest : List AntialiasedPixel) :
    pairsOkB (a :: b :: rest) = (covPairOk a.2.2 b.2.2 && pairsOkB rest) := rfl

theorem wuLoop_pairsOk (steep : Bool) (g : ℚ) : ∀ (n : ℕ) (x : ℤ) (y : ℚ),
    pairsOkB (wuLoop steep (F.val g) n x (F.val y)) = true := by
  intro n
  induction n with
  | zero => intro x y; rfl
  | succ n ih =>
    intro x y
    rw [wuLoop]
    simp only [F.ffloor_val, F.sub_val, F.add_val]
    cases steep
    · rw [if_neg (by simp)]
      rw [List.cons_append, List.cons_append, List.nil_append, pairsOkB_cons_cons]
      rw [covPairOk_complement _ _ (by ring), Bool.true_and]
      exact ih (x + 1) (y + g)
    · rw [if_pos rfl]
      rw [List.cons_append, List.cons_append, List.nil_append, pairsOkB_cons_cons]
      rw [covPairOk_complement _ _ (by ring), Bool.true_and]
      exact ih (x + 1) (y + g)

theorem pairsOkB_flatMap (l : List ℤ) (f : ℤ → List AntialiasedPixel)
    (hf : ∀ x ∈ l, ∃ p1 p2 : AntialiasedPixel,
      f x = [p1, p2] ∧ covPairOk p1.2.2 p2.2.2 = true) :
    pairsOkB (l.flatMap f) = true := by
  induction l with
  | nil => rfl
  | cons x l ih =>
    rw [List.flatMap_cons]
    obtain ⟨p1, p2, hfx, hcov⟩ := hf x (List.mem_cons_self x l)
    rw [hfx, List.cons_append, List.cons_append, List.nil_append, pairsOkB_cons_cons, hcov,
      Bool.true_and]
    exact ih (fun z hz => hf z (List.mem_cons_of_mem x hz))

theorem ddaAALoop_pairsOk (issteep : Bool) (xinc yinc : F) :
    ∀ (n : ℕ) (xq yq : ℚ), (2 ≤ n → ∃ a b : ℚ, xinc = F.val a ∧ yinc = F.val b) →
      pairsOkB (ddaAALoop issteep xinc yinc n (F.val xq) (F.val yq)) = true := by
  intro n
  induction n with
  | zero => intro xq yq _; rfl
  | succ n ih =>
    intro xq yq hinc
    rw [ddaAALoop]
    simp only [F.ffloor_val, F.sub_val, F.roundI_val, F.floorI_val]
    cases issteep
    · rw [if_neg (by simp)]
      rw [List.cons_append, List.cons_append, List.nil_append, pairsOkB_cons_cons]
      rw [covPairOk_complement _ _ (by ring), Bool.true_and]
      cases n with
      | zero => rfl
      | succ m =>
        obtain ⟨a, b, ha, hb⟩ := hinc (by omega)
        have hsx : F.add (F.val xq) xinc = F.val (xq + a) := by rw [ha, F.add_val]
        have hsy : F.add (F.val yq) yinc = F.val (yq + b) := by rw [hb, F.add_val]
        rw [hsx, hsy]
        exact ih (xq + a) (yq + b) (fun _ => ⟨a, b, ha, hb⟩)
    · rw [if_pos rfl]
      rw [List.cons_append, List.cons_append, List.nil_append, pairsOkB_cons_cons]
      rw [covPairOk_complement _ _ (by ring), Bool.true_and]
      cases n with
      | zero => rfl
      | succ m =>
        obtain ⟨a, b, ha, hb⟩ := hinc (by omega)
        have hsx : F.add (F.val xq) xinc = F.val (xq + a) := by rw [ha, F.add_val]
        have hsy : F.add (F.val yq) yinc = F.val (yq + b) := by rw [hb, F.add_val]
        rw [hsx, hsy]
        exact ih (xq + a) (yq + b) (fun _ => ⟨a, b, ha, hb⟩)

theorem bresAALoopX_pairsOk (dx dy sx sy : ℤ) (hdx : dx ≠ 0) :
    ∀ (n : ℕ) (d x y : ℤ), pairsOkB (bresAALoopX dx dy sx sy n d x y) = true := by
  intro n
  induction n with
  | zero => intro d x y; rfl
  | succ n ih =>
    intro d x y
    rw [bresAALoopX]
    have hq : ((dx : ℚ)) ≠ 0 := Int.cast_ne_zero.mpr hdx
    rw [F_div_val _ _ hq]
    simp only [F.sub_val]
    rw [pairsOkB_cons_cons]
    rw [covPairOk_complement _ _ rfl, Bool.true_and]
    split
    · exact ih _ _ _
    · exact ih _ _ _

theorem bresAALoopY_pairsOk (dx dy sx sy : ℤ) (hdy : dy ≠ 0) :
    ∀ (n : ℕ) (d x y : ℤ), pairsOkB (bresAALoopY dx dy sx sy n d x y) = true := by
  intro n
  induction n with
  | zero => intro d x y; rfl
  | succ n ih =>
    intro d x y
    rw [bresAALoopY]
    have hq : ((dy : ℚ)) ≠ 0 := Int.cast_ne_zero.mpr hdy
    rw [F_div_val _ _ hq]
    simp only [F.sub_val]
    rw [pairsOkB_cons_cons]
    rw [covPairOk_complement _ _ rfl, Bool.true_and]
    split
    · exact ih _ _ _
    · exact ih _ _ _

theorem wuLoop_pairsOk_any (steep : Bool) (dxq dyq : ℚ) (n : ℕ) (x : ℤ) (y : ℚ) :
    pairsOkB (wuLoop steep
      (if dxq = 0 then F.val 1 else F.div (F.val dyq) (F.val dxq)) n x (F.val y)) = true := by
  by_cases h : dxq = 0
  · rw [if_pos h]
    exact wuLoop_pairsOk _ _ _ _ _
  · rw [if_neg h, F_div_val _ _ h]
    exact wuLoop_pairsOk _ _ _ _ _

/-- C1 (amended): every antialiasing algorithm emits consecutive pairs of
pixels, two per dominant-axis step, and the two coverages of each pair sum
to `1.0` within `1e-4` — unconditionally for `wu_line` and `dda_aa`; for
`step_by_step_aa` provided the endpoints are not identical, and for
`bresenham_aa` provided the endpoints round to distinct pixels (in the
excluded degenerate cases the computed coverages are `NaN = 0/0`, see the
counterexample). -/
theorem claim_C1_amended (p1 p2 : ℚ × ℚ) :
    pairsOkB (wu_line p1 p2) = true ∧
    pairsOkB (dda_aa p1 p2) = true ∧
    (p1 ≠ p2 → pairsOkB (step_by_step_aa p1 p2) = true) ∧
    ((rhaz p1.1, rhaz p1.2) ≠ (rhaz p2.1, rhaz p2.2) →
      pairsOkB (bresenham_aa p1 p2) = true) := by
  refine ⟨?_, ?_, ?_, ?_⟩
  · simp only [wu_line]
    exact wuLoop_pairsOk_any _ _ _ _ _ _
  · simp only [dda_aa]
    by_cases h0 : (if |p2.2 - p1.2| < |p2.1 - p1.1| then |p2.1 - p1.1| else |p2.2 - p1.2|) = 0
    · rw [h0, rhaz_zero]
      exact ddaAALoop_pairsOk _ _ _ _ _ _ (fun h => absurd h (by decide))
    · rw [F_div_val _ _ h0, F_div_val _ _ h0]
      exact ddaAALoop_pairsOk _ _ _ _ _ _ (fun _ => ⟨_, _, rfl, rfl⟩)
  · intro hne
    simp only [step_by_step_aa]
    by_cases hc : |p2.2 - p1.2| < |p2.1 - p1.1|
    · rw [if_pos hc]
      have hdx : p2.1 - p1.1 ≠ 0 := by
        intro h
        rw [h, abs_zero] at hc
        exact absurd hc (not_lt.mpr (abs_nonneg _))
      rw [F_div_val _ _ hdx]
      apply pairsOkB_flatMap
      intro x hx
      refine ⟨_, _, rfl, ?_⟩
      simp only [F.mul_val, F.sub_val, F.add_val, F.ffloor_val]
      exact covPairOk_complement _ _ rfl
    · rw [if_neg hc]
      push_neg at hc
      have hdy : p2.2 - p1.2 ≠ 0 := by
        intro h
        apply hne
        rw [h, abs_zero] at hc
        have h2 : p2.1 - p1.1 = 0 := abs_eq_zero.mp (le_antisymm hc (abs_nonneg _))
        exact Prod.ext_iff.mpr ⟨by linarith, by linarith⟩
      rw [F_div_val _ _ hdy]
      apply pairsOkB_flatMap
      intro y hy
      refine ⟨_, _, rfl, ?_⟩
      simp only [F.mul_val, F.sub_val, F.add_val, F.ffloor_val]
      exact covPairOk_complement _ _ rfl
  · intro hne2
    simp only [bresenham_aa]
    by_cases hc : |rhaz p2.2 - rhaz p1.2| ≤ |rhaz p2.1 - rhaz p1.1|
    · rw [if_pos hc]
      apply bresAALoopX_pairsOk
      intro h
      apply hne2
      have h1 : rhaz p2.1 = rhaz p1.1 := by
        have := abs_eq_zero.mp h
        omega
      have h2 : rhaz p2.2 = rhaz p1.2 := by
        rw [h] at hc
        have := abs_eq_zero.mp (le_antisymm hc (abs_nonneg _))
        omega
      rw [h1, h2]
    · rw [if_neg hc]
      apply bresAALoopY_pairsOk
      push_neg at hc
      intro h
      rw [h] at hc
      exact absurd hc (not_lt.mpr (abs_nonneg _))

/-- C1 (counterexample): on the zero-length input `(0,0)-(0,0)`,
`step_by_step_aa` takes its `else` branch, computes slope `0/0 = NaN`, and
emits one pair of pixels whose coverages are both `NaN`; their sum is `NaN`,
which is not within `1e-4` of `1.0`, so the claim fails as stated. -/
theorem claim_C1_counterexample :
    pairsOkB (step_by_step_aa (0, 0) (0, 0)) = false := by
  simp only [step_by_step_aa]
  norm_num
  rw [rhaz_zero, intRange_self]
  rfl

theorem claim_C1_witness :
    (((0 : ℚ), (0 : ℚ)) ≠ ((3 : ℚ), (2 : ℚ))) ∧
      ((rhaz ((0 : ℚ), (0 : ℚ)).1, rhaz ((0 : ℚ), (0 : ℚ)).2) ≠
        (rhaz ((3 : ℚ), (2 : ℚ)).1, rhaz ((3 : ℚ), (2 : ℚ)).2)) ∧
      pairsOkB (step_by_step_aa (0, 0) (3, 2)) = true ∧
      pairsOkB (bresenham_aa (0, 0) (3, 2)) = true := by
  have hne : ((0 : ℚ), (0 : ℚ)) ≠ ((3 : ℚ), (2 : ℚ)) := by
    intro h
    exact absurd (congrArg Prod.fst h) (by norm_num)
  have hr3 : rhaz (3 : ℚ) = 3 := by
    rw [show (3 : ℚ) = ((3 : ℤ) : ℚ) by norm_num, rhaz_intCast]
  have hne2 : ((rhaz ((0 : ℚ), (0 : ℚ)).1, rhaz ((0 : ℚ), (0 : ℚ)).2) ≠
      (rhaz ((3 : ℚ), (2 : ℚ)).1, rhaz ((3 : ℚ), (2 : ℚ)).2)) := by
    intro h
    have h1 := congrArg Prod.fst h
    simp only at h1
    rw [rhaz_zero, hr3] at h1
    exact absurd h1 (by decide)
  exact ⟨hne, hne2, (claim_C1_amended (0, 0) (3, 2)).2.2.1 hne,
    (claim_C1_amended (0, 0) (3, 2)).2.2.2 hne2⟩

theorem covRangesB_val_cons (x1 y1 x2 y2 : ℤ) (q1 q2 : ℚ) (rest : List AntialiasedPixel) :
    covRangesB ((x1, y1, F.val q1) :: (x2, y2, F.val q2) :: rest) =
      (decide (0 < q1 ∧ q1 ≤ 1) && decide (0 ≤ q2 ∧ q2 < 1) && covRangesB rest) := rfl

theorem bresAALoopX_covRanges (dx dy sx sy : ℤ) (hdx : 0 < dx) (hdy : 0 ≤ dy)
    (hdydx : dy ≤ dx) : ∀ (n : ℕ) (d x y : ℤ), 0 ≤ d → d < dx →
      covRangesB (bresAALoopX dx dy sx sy n d x y) = true := by
  intro n
  induction n with
  | zero => intro d x y _ _; rfl
  | succ n ih =>
    intro d x y hd0 hdlt
    rw [bresAALoopX]
    have hqpos : (0 : ℚ) < (dx : ℚ) := by exact_mod_cast hdx
    rw [F_div_val _ _ (ne_of_gt hqpos)]
    simp only [F.sub_val]
    rw [covRangesB_val_cons, Bool.and_assoc, Bool.and_eq_true, Bool.and_eq_true]
    have hfrac0 : (0 : ℚ) ≤ (d : ℚ) / (dx : ℚ) :=
      div_nonneg (by exact_mod_cast hd0) (le_of_lt hqpos)
    have hfrac1 : (d : ℚ) / (dx : ℚ) < 1 := by
      rw [div_lt_one hqpos]
      exact_mod_cast hdlt
    refine ⟨by rw [decide_eq_true_eq]; constructor <;> linarith, ?_, ?_⟩
    · rw [decide_eq_true_eq]
      exact ⟨hfrac0, hfrac1⟩
    · split
      · exact ih _ _ _ (by omega) (by omega)
      · exact ih _ _ _ (by omega) (by omega)

theorem bresAALoopY_covRanges (dx dy sx sy : ℤ) (hdy : 0 < dy) (hdx : 0 ≤ dx)
    (hdxdy : dx ≤ dy) : ∀ (n : ℕ) (d x y : ℤ), 0 ≤ d → d < dy →
      covRangesB (bresAALoopY dx dy sx sy n d x y) = true := by
  intro n
  induction n with
  | zero => intro d x y _ _; rfl
  | succ n ih =>
    intro d x y hd0 hdlt
    rw [bresAALoopY]
    have hqpos : (0 : ℚ) < (dy : ℚ) := by exact_mod_cast hdy
    rw [F_div_val _ _ (ne_of_gt hqpos)]
    simp only [F.sub_val]
    rw [covRangesB_val_cons, Bool.and_assoc, Bool.and_eq_true, Bool.and_eq_true]
    have hfrac0 : (0 : ℚ) ≤ (d : ℚ) / (dy : ℚ) :=
      div_nonneg (by exact_mod_cast hd0) (le_of_lt hqpos)
    have hfrac1 : (d : ℚ) / (dy : ℚ) < 1 := by
      rw [div_lt_one hqpos]
      exact_mod_cast hdlt
    refine ⟨by rw [decide_eq_true_eq]; constructor <;> linarith, ?_, ?_⟩
    · rw [decide_eq_true_eq]
      exact ⟨hfrac0, hfrac1⟩
    · split
      · exact ih _ _ _ (by omega) (by omega)
      · exact ih _ _ _ (by omega) (by omega)

/-- C9: in `bresenham_aa` the integer error accumulator satisfies
`0 ≤ d < span` at the start of every loop iteration (the two universally
quantified conjuncts state exactly the preservation of that head invariant
for the shallow and steep loops), so the primary pixel's coverage
`1 - d/span` lies in `(0,1]` and the emitted intensity `d/span` lies in
`[0,1)`; the last conjunct instantiates this for `bresenham_aa` whenever the
rounded endpoints are distinct. -/
theorem claim_C9 :
    (∀ (dx dy sx sy : ℤ), 0 < dx → 0 ≤ dy → dy ≤ dx →
      ∀ (n : ℕ) (d x y : ℤ), 0 ≤ d → d < dx →
        covRangesB (bresAALoopX dx dy sx sy n d x y) = true) ∧
    (∀ (dx dy sx sy : ℤ), 0 < dy → 0 ≤ dx → dx ≤ dy →
      ∀ (n : ℕ) (d x y : ℤ), 0 ≤ d → d < dy →
        covRangesB (bresAALoopY dx dy sx sy n d x y) = true) ∧
    ∀ (p1 p2 : ℚ × ℚ), (rhaz p1.1, rhaz p1.2) ≠ (rhaz p2.1, rhaz p2.2) →
      covRangesB (bresenham_aa p1 p2) = true := by
  refine ⟨bresAALoopX_covRanges, bresAALoopY_covRanges, ?_⟩
  intro p1 p2 hne2
  simp only [bresenham_aa]
  by_cases hc : |rhaz p2.2 - rhaz p1.2| ≤ |rhaz p2.1 - rhaz p1.1|
  · rw [if_pos hc]
    have hdx : 0 < |rhaz p2.1 - rhaz p1.1| := by
      rcases lt_or_eq_of_le (abs_nonneg (rhaz p2.1 - rhaz p1.1)) with h | h
      · exact h
      · exfalso
        apply hne2
        have h1 := abs_eq_zero.mp h.symm
        have h2 := abs_eq_zero.mp (le_antisymm (h ▸ hc) (abs_nonneg _))
        rw [show rhaz p1.1 = rhaz p2.1 by omega, show rhaz p1.2 = rhaz p2.2 by omega]
    exact bresAALoopX_covRanges _ _ _ _ hdx (abs_nonneg _) hc _ _ _ _ le_rfl hdx
  · rw [if_neg hc]
    push_neg at hc
    have hdy : 0 < |rhaz p2.2 - rhaz p1.2| := lt_of_le_of_lt (abs_nonneg _) hc
    exact bresAALoopY_covRanges _ _ _ _ hdy (abs_nonneg _) (le_of_lt hc) _ _ _ _ le_rfl hdy

theorem claim_C9_witness :
    ((rhaz ((0 : ℚ), (0 : ℚ)).1, rhaz ((0 : ℚ), (0 : ℚ)).2) ≠
        (rhaz ((3 : ℚ), (2 : ℚ)).1, rhaz ((3 : ℚ), (2 : ℚ)).2)) ∧
      covRangesB (bresenham_aa (0, 0) (3, 2)) = true := by
  have hr3 : rhaz (3 : ℚ) = 3 := by
    rw [show (3 : ℚ) = ((3 : ℤ) : ℚ) by norm_num, rhaz_intCast]
  have hne2 : ((rhaz ((0 : ℚ), (0 : ℚ)).1, rhaz ((0 : ℚ), (0 : ℚ)).2) ≠
      (rhaz ((3 : ℚ), (2 : ℚ)).1, rhaz ((3 : ℚ), (2 : ℚ)).2)) := by
    intro h
    have h1 := congrArg Prod.fst h
    simp only at h1
    rw [rhaz_zero, hr3] at h1
    exact absurd h1 (by decide)
  exact ⟨hne2, claim_C9.2.2 (0, 0) (3, 2) hne2⟩

/-! ### Bresenham loop theory: the abstract step-counting loop -/

theorem bresB_sandwich (p q i : ℤ) (hp : 0 < p) :
    2 * p * bresB p q i - p ≤ 2 * i * q ∧ 2 * i * q < 2 * p * bresB p q i + p := by
  unfold bresB
  have h2p : (0 : ℤ) < 2 * p := by omega
  have hdiv := Int.ediv_add_emod (2 * i * q + p) (2 * p)
  have hlow := Int.emod_nonneg (2 * i * q + p) (by omega : (2 * p) ≠ 0)
  have hhigh := Int.emod_lt_of_pos (2 * i * q + p) h2p
  constructor
  · linarith
  · linarith

theorem bresB_unique (p q i b : ℤ) (hp : 0 < p) (h1 : 2 * p * b - p ≤ 2 * i * q)
    (h2 : 2 * i * q < 2 * p * b + p) : b = bresB p q i := by
  have hs := bresB_sandwich p q i hp
  by_contra hne
  rcases lt_or_gt_of_ne hne with hlt | hgt
  · have hb1 : b ≤ bresB p q i - 1 := by omega
    have hmul := mul_le_mul_of_nonneg_left hb1 (by omega : (0 : ℤ) ≤ 2 * p)
    linarith [hs.1]
  · have hb1 : bresB p q i ≤ b - 1 := by omega
    have hmul := mul_le_mul_of_nonneg_left hb1 (by omega : (0 : ℤ) ≤ 2 * p)
    linarith [hs.2]

theorem bresB_self (p q : ℤ) (hp : 0 < p) : bresB p q p = q := by
  unfold bresB
  rw [show 2 * p * q + p = p + 2 * p * q by ring]
  rw [Int.add_mul_ediv_left p q (by omega : (2 * p) ≠ 0)]
  rw [Int.ediv_eq_zero_of_lt (by omega) (by omega)]
  ring

theorem bresLoop_succ (x2 y2 dx dy sx sy : ℤ) (n : ℕ) (x1 y1 err : ℤ)
    (hne : ¬(x1 = x2 ∧ y1 = y2)) :
    bresLoop x2 y2 dx dy sx sy (n + 1) x1 y1 err =
      (bresLoop x2 y2 dx dy sx sy n
        (if dy ≤ 2 * err then x1 + sx else x1)
        (if 2 * err ≤ dx then y1 + sy else y1)
        ((if dy ≤ 2 * err then err + dy else err) + (if 2 * err ≤ dx then dx else 0))).map
        (fun l => (x1, y1) :: l) := by
  simp only [bresLoop, if_neg hne]
  by_cases h1 : dy ≤ 2 * err <;> by_cases h2 : 2 * err ≤ dx <;>
    simp [h1, h2]

theorem absLoop_succ (p q : ℤ) (n : ℕ) (a b err : ℤ) (hne : ¬(a = p ∧ b = q)) :
    absLoop p q (n + 1) a b err =
      (absLoop p q n
        (if -q ≤ 2 * err then a + 1 else a)
        (if 2 * err ≤ p then b + 1 else b)
        ((if -q ≤ 2 * err then err - q else err) + (if 2 * err ≤ p then p else 0))).map
        (fun l => (a, b) :: l) := by
  simp only [absLoop, if_neg hne]
  by_cases h1 : -q ≤ 2 * err <;> by_cases h2 : 2 * err ≤ p <;>
    simp [h1, h2]

theorem absLoop_run (p q : ℤ) (hp : 0 < p) (hq : 0 ≤ q) (hqp : q ≤ p) :
    ∀ (k : ℕ) (b err : ℤ), (k : ℤ) ≤ p →
      2 * p * b - p ≤ 2 * (p - (k : ℤ)) * q →
      2 * (p - (k : ℤ)) * q < 2 * p * b + p →
      err = (b + 1) * p - ((p - (k : ℤ)) + 1) * q →
      absLoop p q (k + 1) (p - (k : ℤ)) b err =
        some ((List.range (k + 1)).map
          (fun (i : ℕ) => (p - (k : ℤ) + (i : ℤ), bresB p q (p - (k : ℤ) + (i : ℤ))))) := by
  intro k
  induction k with
  | zero =>
    intro b err hk h1 h2 herr
    simp only [Nat.cast_zero, sub_zero] at h1 h2 herr ⊢
    have hbq : b = q := by
      have hub := bresB_unique p q p b hp (by linarith) (by linarith)
      rw [hub, bresB_self p q hp]
    rw [absLoop, if_pos ⟨rfl, hbq⟩]
    rw [List.range_succ, List.range_zero, List.nil_append, List.map_cons, List.map_nil]
    rw [show p + ((0 : ℕ) : ℤ) = p by norm_num]
    rw [bresB_self p q hp, hbq]
  | succ k ih =>
    intro b err hk h1 h2 herr
    push_cast at hk h1 h2 herr ⊢
    have hne : ¬(p - ((k : ℤ) + 1) = p ∧ b = q) := by
      rintro ⟨ha, _⟩
      omega
    rw [absLoop_succ p q (k + 1) _ b err hne]
    have hbB : b = bresB p q (p - ((k : ℤ) + 1)) := by
      refine bresB_unique p q _ b hp ?_ ?_ <;> linarith
    have hastep : -q ≤ 2 * err := by linarith
    rw [if_pos hastep, if_pos hastep]
    have harg : p - ((k : ℤ) + 1) + 1 = p - (k : ℤ) := by ring
    rw [harg]
    by_cases hy : 2 * err ≤ p
    · rw [if_pos hy, if_pos hy]
      have hrec := ih (b + 1) (err - q + p) (by linarith)
        (by linarith) (by linarith) (by linarith)
      rw [hrec, Option.map_some']
      refine congrArg some ?_
      conv_rhs => rw [List.range_succ_eq_map, List.map_cons, List.map_map]
      refine congrArg₂ List.cons ?_ ?_
      · rw [show p - ((k : ℤ) + 1) + ((0 : ℕ) : ℤ) = p - ((k : ℤ) + 1) by norm_num]
        rw [hbB]
      · refine List.map_congr_left fun i hi => ?_
        simp only [Function.comp_apply]
        push_cast
        refine congrArg₂ Prod.mk (by ring) (congrArg (bresB p q) (by ring))
    · rw [if_neg hy, if_neg hy]
      have hrec := ih b (err - q) (by linarith)
        (by linarith) (by linarith) (by linarith)
      rw [add_zero, hrec, Option.map_some']
      refine congrArg some ?_
      conv_rhs => rw [List.range_succ_eq_map, List.map_cons, List.map_map]
      refine congrArg₂ List.cons ?_ ?_
      · rw [show p - ((k : ℤ) + 1) + ((0 : ℕ) : ℤ) = p - ((k : ℤ) + 1) by norm_num]
        rw [hbB]
      · refine List.map_congr_left fun i hi => ?_
        simp only [Function.comp_apply]
        push_cast
        refine congrArg₂ Prod.mk (by ring) (congrArg (bresB p q) (by ring))

theorem bresLoop_sim_shallow (x1 y1 dx dy sx sy x2 y2 : ℤ)
    (hx2 : x2 = x1 + dx * sx) (hy2 : y2 = y1 + (-dy) * sy)
    (hsx : sx = 1 ∨ sx = -1) (hsy : sy = 1 ∨ sy = -1) :
    ∀ (n : ℕ) (a b err : ℤ),
      bresLoop x2 y2 dx dy sx sy n (x1 + a * sx) (y1 + b * sy) err =
        (absLoop dx (-dy) n a b err).map
          (List.map (fun ab => (x1 + ab.1 * sx, y1 + ab.2 * sy))) := by
  intro n
  induction n with
  | zero => intro a b err; rfl
  | succ n ih =>
    intro a b err
    have hbreak : ((x1 + a * sx = x2 ∧ y1 + b * sy = y2) ↔ (a = dx ∧ b = -dy)) := by
      constructor
      · rintro ⟨h1, h2⟩
        constructor
        · rcases hsx with h | h <;> rw [h] at h1 hx2 <;> omega
        · rcases hsy with h | h <;> rw [h] at h2 hy2 <;> omega
      · rintro ⟨h1, h2⟩
        exact ⟨by rw [h1, hx2], by rw [h2, hy2]⟩
    by_cases hb : a = dx ∧ b = -dy
    · rw [bresLoop, if_pos (hbreak.mpr hb), absLoop, if_pos hb]
      rfl
    · rw [bresLoop_succ _ _ _ _ _ _ _ _ _ _ (fun hcontra => hb (hbreak.mp hcontra)),
        absLoop_succ _ _ _ _ _ _ hb]
      have hcx : (if dy ≤ 2 * err then (x1 + a * sx) + sx else x1 + a * sx)
          = x1 + (if -(-dy) ≤ 2 * err then a + 1 else a) * sx := by
        rw [neg_neg]
        split <;> ring
      have hcy : (if 2 * err ≤ dx then (y1 + b * sy) + sy else y1 + b * sy)
          = y1 + (if 2 * err ≤ dx then b + 1 else b) * sy := by
        split <;> ring
      have hce : ((if dy ≤ 2 * err then err + dy else err) + (if 2 * err ≤ dx then dx else 0))
          = ((if -(-dy) ≤ 2 * err then err - -dy else err) +
              (if 2 * err ≤ dx then dx else 0)) := by
        rw [neg_neg]
        split <;> ring
      rw [hcx, hcy, hce, ih _ _ _]
      rw [Option.map_map, Option.map_map]
      rfl

theorem bresLoop_sim_steep (x1 y1 dx dy sx sy x2 y2 : ℤ)
    (hx2 : x2 = x1 + dx * sx) (hy2 : y2 = y1 + (-dy) * sy)
    (hsx : sx = 1 ∨ sx = -1) (hsy : sy = 1 ∨ sy = -1) :
    ∀ (n : ℕ) (a b err : ℤ),
      bresLoop x2 y2 dx dy sx sy n (x1 + b * sx) (y1 + a * sy) (-err) =
        (absLoop (-dy) dx n a b err).map
          (List.map (fun ab => (x1 + ab.2 * sx, y1 + ab.1 * sy))) := by
  intro n
  induction n with
  | zero => intro a b err; rfl
  | succ n ih =>
    intro a b err
    have hbreak : ((x1 + b * sx = x2 ∧ y1 + a * sy = y2) ↔ (a = -dy ∧ b = dx)) := by
      constructor
      · rintro ⟨h1, h2⟩
        constructor
        · rcases hsy with h | h <;> rw [h] at h2 hy2 <;> omega
        · rcases hsx with h | h <;> rw [h] at h1 hx2 <;> omega
      · rintro ⟨h1, h2⟩
        exact ⟨by rw [h2, hx2], by rw [h1, hy2]⟩
    by_cases hb : a = -dy ∧ b = dx
    · rw [bresLoop, if_pos (hbreak.mpr hb), absLoop, if_pos hb]
      rfl
    · rw [bresLoop_succ _ _ _ _ _ _ _ _ _ _ (fun hcontra => hb (hbreak.mp hcontra)),
        absLoop_succ _ _ _ _ _ _ hb]
      have hcx : (if dy ≤ 2 * -err then (x1 + b * sx) + sx else x1 + b * sx)
          = x1 + (if 2 * err ≤ -dy then b + 1 else b) * sx := by
        by_cases h : 2 * err ≤ -dy
        · rw [if_pos (by omega), if_pos h]
          ring
        · rw [if_neg (by omega), if_neg h]
      have hcy : (if 2 * -err ≤ dx then (y1 + a * sy) + sy else y1 + a * sy)
          = y1 + (if -dx ≤ 2 * err then a + 1 else a) * sy := by
        by_cases h : -dx ≤ 2 * err
        · rw [if_pos (by omega), if_pos h]
          ring
        · rw [if_neg (by omega), if_neg h]
      have hce : ((if dy ≤ 2 * -err then -err + dy else -err) +
            (if 2 * -err ≤ dx then dx else 0))
          = -(((if -dx ≤ 2 * err then err - dx else err) +
              (if 2 * err ≤ -dy then -dy else 0))) := by
        by_cases h1 : 2 * err ≤ -dy <;> by_cases h2 : -dx ≤ 2 * err
        · rw [if_pos (by omega), if_pos (by omega), if_pos h2, if_pos h1]
          ring
        · rw [if_pos (by omega), if_neg (by omega), if_neg h2, if_pos h1]
          ring
        · rw [if_neg (by omega), if_pos (by omega), if_pos h2, if_neg h1]
          ring
        · rw [if_neg (by omega), if_neg (by omega), if_neg h2, if_neg h1]
          ring
      rw [hcx, hcy, hce, ih _ _ _]
      rw [Option.map_map, Option.map_map]
      rfl

theorem sign_cover (u v : ℤ) : v = u + |v - u| * (if u < v then 1 else -1) := by
  by_cases h : u < v
  · rw [if_pos h, abs_of_nonneg (by omega : (0 : ℤ) ≤ v - u)]
    ring
  · rw [if_neg h, abs_of_nonpos (by omega : v - u ≤ 0)]
    ring

theorem bresLoop_run_gen (x1 y1 x2 y2 dx D sx sy : ℤ)
    (hdx : dx = |x2 - x1|) (hD : D = |y2 - y1|)
    (hsx : sx = if x1 < x2 then 1 else -1) (hsy : sy = if y1 < y2 then 1 else -1) :
    ∃ l, bresLoop x2 y2 dx (-D) sx sy ((max dx D).toNat + 1) x1 y1 (dx + -D) = some l ∧
      l.length = (max dx D).toNat + 1 ∧
      (D ≤ dx → l = (List.range (dx.toNat + 1)).map
        (fun (i : ℕ) => (x1 + (i : ℤ) * sx, y1 + bresB dx D (i : ℤ) * sy))) ∧
      (dx < D → l = (List.range (D.toNat + 1)).map
        (fun (i : ℕ) => (x1 + bresB D dx (i : ℤ) * sx, y1 + (i : ℤ) * sy))) := by
  have hx2 : x2 = x1 + dx * sx := by
    rw [hdx, hsx]
    exact sign_cover x1 x2
  have hy2 : y2 = y1 + D * sy := by
    rw [hD, hsy]
    exact sign_cover y1 y2
  have hsx' : sx = 1 ∨ sx = -1 := by
    rw [hsx]
    split
    · exact Or.inl rfl
    · exact Or.inr rfl
  have hsy' : sy = 1 ∨ sy = -1 := by
    rw [hsy]
    split
    · exact Or.inl rfl
    · exact Or.inr rfl
  have hdx0 : 0 ≤ dx := hdx ▸ abs_nonneg _
  have hD0 : 0 ≤ D := hD ▸ abs_nonneg _
  by_cases hcase : D ≤ dx
  · by_cases hdxz : dx = 0
    · have hDz : D = 0 := by omega
      have hx : x2 = x1 := by
        rw [hx2, hdxz]
        ring
      have hy : y2 = y1 := by
        rw [hy2, hDz]
        ring
      refine ⟨[(x1, y1)], ?_, ?_, ?_, ?_⟩
      · rw [hx, hy, bresLoop, if_pos ⟨rfl, rfl⟩]
      · simp [hdxz, hDz]
      · intro _
        rw [hdxz, hDz]
        simp [bresB, List.range_succ]
      · intro hcontra
        omega
    · have hp : 0 < dx := by omega
      have hcast : ((dx.toNat : ℕ) : ℤ) = dx := Int.toNat_of_nonneg hdx0
      have run := absLoop_run dx D hp hD0 hcase dx.toNat 0 (dx + -D) (by omega)
        (by rw [hcast]; norm_num; omega)
        (by rw [hcast]; norm_num; omega)
        (by rw [hcast]; ring)
      rw [show dx - ((dx.toNat : ℕ) : ℤ) = 0 from by omega] at run
      have sim := bresLoop_sim_shallow x1 y1 dx (-D) sx sy x2 y2 hx2
        (by rw [neg_neg]; exact hy2) hsx' hsy' (dx.toNat + 1) 0 0 (dx + -D)
      rw [neg_neg] at sim
      rw [run] at sim
      rw [show x1 + 0 * sx = x1 from by ring, show y1 + 0 * sy = y1 from by ring] at sim
      rw [Option.map_some'] at sim
      rw [List.map_map] at sim
      have hmap : List.map ((fun ab : ℤ × ℤ => (x1 + ab.1 * sx, y1 + ab.2 * sy)) ∘
          (fun (i : ℕ) => ((0 : ℤ) + (i : ℤ), bresB dx D (0 + (i : ℤ)))))
          (List.range (dx.toNat + 1)) =
          (List.range (dx.toNat + 1)).map
            (fun (i : ℕ) => (x1 + (i : ℤ) * sx, y1 + bresB dx D (i : ℤ) * sy)) := by
        refine List.map_congr_left fun i _ => ?_
        simp [Function.comp_apply]
      rw [hmap] at sim
      have hfuel : (max dx D).toNat = dx.toNat := by
        rw [max_eq_left hcase]
      refine ⟨_, ?_, ?_, fun _ => rfl, fun hcontra => absurd hcontra (by omega)⟩
      · rw [hfuel]
        exact sim
      · rw [List.length_map, List.length_range, hfuel]
  · push_neg at hcase
    have hp : 0 < D := by omega
    have hcast : ((D.toNat : ℕ) : ℤ) = D := Int.toNat_of_nonneg hD0
    have run := absLoop_run D dx hp hdx0 (le_of_lt hcase) D.toNat 0 (D - dx) (by omega)
      (by rw [hcast]; norm_num; omega)
      (by rw [hcast]; norm_num; omega)
      (by rw [hcast]; ring)
    rw [show D - ((D.toNat : ℕ) : ℤ) = 0 from by omega] at run
    have sim := bresLoop_sim_steep x1 y1 dx (-D) sx sy x2 y2 hx2
      (by rw [neg_neg]; exact hy2) hsx' hsy' (D.toNat + 1) 0 0 (D - dx)
    rw [neg_neg] at sim
    rw [run] at sim
    rw [show x1 + 0 * sx = x1 from by ring, show y1 + 0 * sy = y1 from by ring] at sim
    rw [show -(D - dx) = dx + -D from by ring] at sim
    rw [Option.map_some'] at sim
    rw [List.map_map] at sim
    have hmap : List.map ((fun ab : ℤ × ℤ => (x1 + ab.2 * sx, y1 + ab.1 * sy)) ∘
        (fun (i : ℕ) => ((0 : ℤ) + (i : ℤ), bresB D dx (0 + (i : ℤ)))))
        (List.range (D.toNat + 1)) =
        (List.range (D.toNat + 1)).map
          (fun (i : ℕ) => (x1 + bresB D dx (i : ℤ) * sx, y1 + (i : ℤ) * sy)) := by
      refine List.map_congr_left fun i _ => ?_
      simp [Function.comp_apply]
    rw [hmap] at sim
    have hfuel : (max dx D).toNat = D.toNat := by
      rw [max_eq_right (le_of_lt hcase)]
    refine ⟨_, ?_, ?_, fun hcontra => absurd hcontra (by omega), fun _ => rfl⟩
    · rw [hfuel]
      exact sim
    · rw [List.length_map, List.length_range, hfuel]

theorem bresenham_line_eq (p1 p2 : ℚ × ℚ) :
    bresenham_line p1 p2 =
      (bresLoop (rhaz p2.1) (rhaz p2.2) |rhaz p2.1 - rhaz p1.1| (-|rhaz p2.2 - rhaz p1.2|)
        (if rhaz p1.1 < rhaz p2.1 then 1 else -1) (if rhaz p1.2 < rhaz p2.2 then 1 else -1)
        ((max |rhaz p2.1 - rhaz p1.1| |rhaz p2.2 - rhaz p1.2|).toNat + 1)
        (rhaz p1.1) (rhaz p1.2)
        (|rhaz p2.1 - rhaz p1.1| + -|rhaz p2.2 - rhaz p1.2|)).getD [] := by
  simp only [bresenham_line, neg_neg]

/-- C8: the `loop` of `bresenham_line` terminates: with fuel
`max(|dx|,|dy|) + 1` it returns `some` list (never exhausting the fuel), the
list is what `bresenham_line` returns, and its length is exactly
`max(|dx|,|dy|) + 1` — one pixel per iteration, so the iteration count is
bounded by (indeed equal to) a quantity proportional to `max(|dx|,|dy|)`. -/
theorem claim_C8 (p1 p2 : ℚ × ℚ) :
    ∃ l, bresLoop (rhaz p2.1) (rhaz p2.2) |rhaz p2.1 - rhaz p1.1|
        (-|rhaz p2.2 - rhaz p1.2|)
        (if rhaz p1.1 < rhaz p2.1 then 1 else -1) (if rhaz p1.2 < rhaz p2.2 then 1 else -1)
        ((max |rhaz p2.1 - rhaz p1.1| |rhaz p2.2 - rhaz p1.2|).toNat + 1)
        (rhaz p1.1) (rhaz p1.2)
        (|rhaz p2.1 - rhaz p1.1| + -|rhaz p2.2 - rhaz p1.2|) = some l ∧
      bresenham_line p1 p2 = l ∧
      l.length = (max |rhaz p2.1 - rhaz p1.1| |rhaz p2.2 - rhaz p1.2|).toNat + 1 := by
  obtain ⟨l, hsome, hlen, _, _⟩ := bresLoop_run_gen (rhaz p1.1) (rhaz p1.2) (rhaz p2.1)
    (rhaz p2.2) |rhaz p2.1 - rhaz p1.1| |rhaz p2.2 - rhaz p1.2|
    (if rhaz p1.1 < rhaz p2.1 then 1 else -1) (if rhaz p1.2 < rhaz p2.2 then 1 else -1)
    rfl rfl rfl rfl
  refine ⟨l, hsome, ?_, hlen⟩
  rw [bresenham_line_eq, hsome]
  rfl

theorem bresB_diag (p i : ℤ) (hp : 0 < p) : bresB p p i = i := by
  unfold bresB
  rw [show 2 * i * p + p = p + 2 * p * i by ring]
  rw [Int.add_mul_ediv_left p i (by omega : (2 * p) ≠ 0)]
  rw [Int.ediv_eq_zero_of_lt (by omega) (by omega)]
  ring

theorem bresB_round (p q i : ℤ) (hp : 0 < p) (hodd : Odd p) :
    |(i : ℚ) * (q : ℚ) / (p : ℚ) - ((bresB p q i : ℤ) : ℚ)| < 1/2 := by
  obtain ⟨hs1, hs2⟩ := bresB_sandwich p q i hp
  have hne : 2 * p * bresB p q i - p ≠ 2 * i * q := by
    intro heq
    have hoddL : Odd (2 * p * bresB p q i - p) := by
      rcases hodd with ⟨m, hm⟩
      exact ⟨(2 * m + 1) * bresB p q i - m - 1, by rw [hm]; ring⟩
    rw [heq] at hoddL
    exact ((Int.not_odd_iff_even.mpr ⟨i * q, by ring⟩)) hoddL
  have hs1' : 2 * p * bresB p q i - p < 2 * i * q := lt_of_le_of_ne hs1 hne
  have hpq : (0 : ℚ) < (p : ℚ) := by exact_mod_cast hp
  rw [abs_sub_lt_iff]
  constructor
  · rw [sub_lt_iff_lt_add, div_lt_iff₀ hpq]
    have hcast : ((2 * i * q : ℤ) : ℚ) < ((2 * p * bresB p q i + p : ℤ) : ℚ) := by
      exact_mod_cast hs2
    push_cast at hcast
    linarith
  · rw [sub_lt_comm, lt_div_iff₀ hpq]
    have hcast : ((2 * p * bresB p q i - p : ℤ) : ℚ) < ((2 * i * q : ℤ) : ℚ) := by
      exact_mod_cast hs1'
    push_cast at hcast
    linarith

theorem line_round_eq (p q i b' sy : ℤ) (hp : 0 < p) (hodd : Odd p)
    (hsy : sy = 1 ∨ sy = -1) :
    rhaz ((b' : ℚ) + (sy : ℚ) * ((i : ℚ) * (q : ℚ) / (p : ℚ))) = b' + sy * bresB p q i := by
  apply rhaz_near
  have hb := bresB_round p q i hp hodd
  have hdecomp : (b' : ℚ) + (sy : ℚ) * ((i : ℚ) * ↑q / ↑p) - ((b' + sy * bresB p q i : ℤ) : ℚ)
      = (sy : ℚ) * ((i : ℚ) * ↑q / ↑p - ((bresB p q i : ℤ) : ℚ)) := by
    push_cast
    ring
  rw [hdecomp, abs_mul]
  rcases hsy with h | h
  · rw [h]
    norm_num
    exact hb
  · rw [h]
    norm_num
    exact hb

theorem mem_map_intRange (f : ℤ → ℤ × ℤ) (lo hi : ℤ) (z : ℤ × ℤ) :
    z ∈ (intRange lo hi).map f ↔ ∃ x, lo ≤ x ∧ x ≤ hi ∧ f x = z := by
  rw [List.mem_map]
  constructor
  · rintro ⟨x, hx, rfl⟩
    rw [intRange_mem] at hx
    exact ⟨x, hx.1, hx.2, rfl⟩
  · rintro ⟨x, h1, h2, rfl⟩
    exact ⟨x, (intRange_mem lo hi x).mpr ⟨h1, h2⟩, rfl⟩

theorem mem_map_range (g : ℕ → ℤ × ℤ) (n : ℕ) (z : ℤ × ℤ) :
    z ∈ (List.range (n + 1)).map g ↔ ∃ i : ℕ, i ≤ n ∧ g i = z := by
  rw [List.mem_map]
  constructor
  · rintro ⟨i, hi, rfl⟩
    rw [List.mem_range] at hi
    exact ⟨i, by omega, rfl⟩
  · rintro ⟨i, hi, rfl⟩
    exact ⟨i, by rw [List.mem_range]; omega, rfl⟩

theorem step_by_step_shallow (p1 p2 : ℚ × ℚ) (h : |p2.2 - p1.2| < |p2.1 - p1.1|)
    (hdx : p2.1 - p1.1 ≠ 0) :
    step_by_step p1 p2 =
      (intRange (rhaz (if p1.1 < p2.1 then p1.1 else p2.1))
        (rhaz (if p1.1 < p2.1 then p2.1 else p1.1))).map
        (fun (x : ℤ) => (x, rhaz ((p2.2 - p1.2) / (p2.1 - p1.1) * (x : ℚ)
          + (p1.2 - (p2.2 - p1.2) / (p2.1 - p1.1) * p1.1)))) := by
  simp only [step_by_step]
  rw [if_pos h, F_div_val _ _ hdx]
  simp only [F.mul_val, F.sub_val, F.add_val, F.roundI_val]

theorem step_by_step_steep (p1 p2 : ℚ × ℚ) (h : ¬(|p2.2 - p1.2| < |p2.1 - p1.1|))
    (hdy : p2.2 - p1.2 ≠ 0) :
    step_by_step p1 p2 =
      (intRange (rhaz (if p1.2 < p2.2 then p1.2 else p2.2))
        (rhaz (if p1.2 < p2.2 then p2.2 else p1.2))).map
        (fun (y : ℤ) => (rhaz ((p2.1 - p1.1) / (p2.2 - p1.2) * (y : ℚ)
          + (p1.1 - (p2.1 - p1.1) / (p2.2 - p1.2) * p1.2)), y)) := by
  simp only [step_by_step]
  rw [if_neg h, F_div_val _ _ hdy]
  simp only [F.mul_val, F.sub_val, F.add_val, F.roundI_val]

theorem rhaz_if_min (a c : ℤ) :
    rhaz (if (a : ℚ) < (c : ℚ) then (a : ℚ) else (c : ℚ)) = if a < c then a else c := by
  by_cases h : a < c
  · rw [if_pos (show (a : ℚ) < (c : ℚ) by exact_mod_cast h), if_pos h, rhaz_intCast]
  · rw [if_neg (show ¬((a : ℚ) < (c : ℚ)) by exact_mod_cast h), if_neg h, rhaz_intCast]

theorem rhaz_if_max (a c : ℤ) :
    rhaz (if (a : ℚ) < (c : ℚ) then (c : ℚ) else (a : ℚ)) = if a < c then c else a := by
  by_cases h : a < c
  · rw [if_pos (show (a : ℚ) < (c : ℚ) by exact_mod_cast h), if_pos h, rhaz_intCast]
  · rw [if_neg (show ¬((a : ℚ) < (c : ℚ)) by exact_mod_cast h), if_neg h, rhaz_intCast]

theorem abs_cast_int (u v : ℤ) : |(u : ℚ) - (v : ℚ)| = ((|u - v| : ℤ) : ℚ) := by
  rw [show (u : ℚ) - (v : ℚ) = ((u - v : ℤ) : ℚ) by push_cast; ring, ← Int.cast_abs]

theorem sbs_int_shallow (a b c d : ℤ) (hcd : |(d : ℚ) - (b : ℚ)| < |(c : ℚ) - (a : ℚ)|)
    (hdx : (c : ℚ) - (a : ℚ) ≠ 0) :
    step_by_step ((a : ℚ), (b : ℚ)) ((c : ℚ), (d : ℚ)) =
      (intRange (rhaz (if (a : ℚ) < (c : ℚ) then (a : ℚ) else (c : ℚ)))
        (rhaz (if (a : ℚ) < (c : ℚ) then (c : ℚ) else (a : ℚ)))).map
        (fun (x : ℤ) => (x, rhaz (((d : ℚ) - (b : ℚ)) / ((c : ℚ) - (a : ℚ)) * (x : ℚ)
          + ((b : ℚ) - ((d : ℚ) - (b : ℚ)) / ((c : ℚ) - (a : ℚ)) * (a : ℚ))))) :=
  step_by_step_shallow ((a : ℚ), (b : ℚ)) ((c : ℚ), (d : ℚ)) hcd hdx

theorem sbs_int_steep (a b c d : ℤ) (hcd : ¬(|(d : ℚ) - (b : ℚ)| < |(c : ℚ) - (a : ℚ)|))
    (hdy : (d : ℚ) - (b : ℚ) ≠ 0) :
    step_by_step ((a : ℚ), (b : ℚ)) ((c : ℚ), (d : ℚ)) =
      (intRange (rhaz (if (b : ℚ) < (d : ℚ) then (b : ℚ) else (d : ℚ)))
        (rhaz (if (b : ℚ) < (d : ℚ) then (d : ℚ) else (b : ℚ)))).map
        (fun (y : ℤ) => (rhaz (((c : ℚ) - (a : ℚ)) / ((d : ℚ) - (b : ℚ)) * (y : ℚ)
          + ((a : ℚ) - ((c : ℚ) - (a : ℚ)) / ((d : ℚ) - (b : ℚ)) * (b : ℚ))), y)) :=
  step_by_step_steep ((a : ℚ), (b : ℚ)) ((c : ℚ), (d : ℚ)) hcd hdy

theorem sbs_val_shallow (a b c d j : ℤ) (hp : 0 < |c - a|) (hodd : Odd |c - a|) :
    rhaz (((d : ℚ) - (b : ℚ)) / ((c : ℚ) - (a : ℚ))
        * (((a + j * (if a < c then 1 else -1)) : ℤ) : ℚ)
      + ((b : ℚ) - ((d : ℚ) - (b : ℚ)) / ((c : ℚ) - (a : ℚ)) * (a : ℚ)))
      = b + (if b < d then 1 else -1) * bresB |c - a| |d - b| j := by
  have hdxne : ((|c - a| : ℤ) : ℚ) ≠ 0 := by
    exact_mod_cast ne_of_gt hp
  have h2 : c - a = |c - a| * (if a < c then 1 else -1) := by
    linarith [sign_cover a c]
  have h3 : d - b = |d - b| * (if b < d then 1 else -1) := by
    linarith [sign_cover b d]
  have hcaQ : (c : ℚ) - (a : ℚ)
      = ((|c - a| : ℤ) : ℚ) * (((if a < c then 1 else -1) : ℤ) : ℚ) := by
    calc (c : ℚ) - (a : ℚ) = ((c - a : ℤ) : ℚ) := by push_cast; ring
      _ = ((|c - a| * (if a < c then 1 else -1) : ℤ) : ℚ) := by rw [← h2]
      _ = ((|c - a| : ℤ) : ℚ) * (((if a < c then 1 else -1) : ℤ) : ℚ) := by push_cast; ring
  have hdbQ : (d : ℚ) - (b : ℚ)
      = ((|d - b| : ℤ) : ℚ) * (((if b < d then 1 else -1) : ℤ) : ℚ) := by
    calc (d : ℚ) - (b : ℚ) = ((d - b : ℤ) : ℚ) := by push_cast; ring
      _ = ((|d - b| * (if b < d then 1 else -1) : ℤ) : ℚ) := by rw [← h3]
      _ = ((|d - b| : ℤ) : ℚ) * (((if b < d then 1 else -1) : ℤ) : ℚ) := by push_cast; ring
  have hkey : ((d : ℚ) - (b : ℚ)) / ((c : ℚ) - (a : ℚ))
        * (((a + j * (if a < c then 1 else -1)) : ℤ) : ℚ)
      + ((b : ℚ) - ((d : ℚ) - (b : ℚ)) / ((c : ℚ) - (a : ℚ)) * (a : ℚ))
      = (b : ℚ) + (((if b < d then 1 else -1) : ℤ) : ℚ)
          * ((j : ℚ) * ((|d - b| : ℤ) : ℚ) / ((|c - a| : ℤ) : ℚ)) := by
    rw [hcaQ, hdbQ]
    rcases (show (if a < c then (1 : ℤ) else -1) = 1 ∨ (if a < c then (1 : ℤ) else -1) = -1
        from by split <;> [exact Or.inl rfl; exact Or.inr rfl]) with h | h <;>
    rcases (show (if b < d then (1 : ℤ) else -1) = 1 ∨ (if b < d then (1 : ℤ) else -1) = -1
        from by split <;> [exact Or.inl rfl; exact Or.inr rfl]) with h' | h' <;>
      rw [h, h'] <;> push_cast [-Int.cast_abs] <;> field_simp <;> ring
  rw [hkey]
  exact line_round_eq _ _ _ _ _ hp hodd
    (by split <;> [exact Or.inl rfl; exact Or.inr rfl])

theorem sbs_val_steep (a b c d j : ℤ) (hp : 0 < |d - b|) (hodd : Odd |d - b|) :
    rhaz (((c : ℚ) - (a : ℚ)) / ((d : ℚ) - (b : ℚ))
        * (((b + j * (if b < d then 1 else -1)) : ℤ) : ℚ)
      + ((a : ℚ) - ((c : ℚ) - (a : ℚ)) / ((d : ℚ) - (b : ℚ)) * (b : ℚ)))
      = a + (if a < c then 1 else -1) * bresB |d - b| |c - a| j := by
  have hdyne : ((|d - b| : ℤ) : ℚ) ≠ 0 := by
    exact_mod_cast ne_of_gt hp
  have h2 : c - a = |c - a| * (if a < c then 1 else -1) := by
    linarith [sign_cover a c]
  have h3 : d - b = |d - b| * (if b < d then 1 else -1) := by
    linarith [sign_cover b d]
  have hcaQ : (c : ℚ) - (a : ℚ)
      = ((|c - a| : ℤ) : ℚ) * (((if a < c then 1 else -1) : ℤ) : ℚ) := by
    calc (c : ℚ) - (a : ℚ) = ((c - a : ℤ) : ℚ) := by push_cast; ring
      _ = ((|c - a| * (if a < c then 1 else -1) : ℤ) : ℚ) := by rw [← h2]
      _ = ((|c - a| : ℤ) : ℚ) * (((if a < c then 1 else -1) : ℤ) : ℚ) := by push_cast; ring
  have hdbQ : (d : ℚ) - (b : ℚ)
      = ((|d - b| : ℤ) : ℚ) * (((if b < d then 1 else -1) : ℤ) : ℚ) := by
    calc (d : ℚ) - (b : ℚ) = ((d - b : ℤ) : ℚ) := by push_cast; ring
      _ = ((|d - b| * (if b < d then 1 else -1) : ℤ) : ℚ) := by rw [← h3]
      _ = ((|d - b| : ℤ) : ℚ) * (((if b < d then 1 else -1) : ℤ) : ℚ) := by push_cast; ring
  have hkey : ((c : ℚ) - (a : ℚ)) / ((d : ℚ) - (b : ℚ))
        * (((b + j * (if b < d then 1 else -1)) : ℤ) : ℚ)
      + ((a : ℚ) - ((c : ℚ) - (a : ℚ)) / ((d : ℚ) - (b : ℚ)) * (b : ℚ))
      = (a : ℚ) + (((if a < c then 1 else -1) : ℤ) : ℚ)
          * ((j : ℚ) * ((|c - a| : ℤ) : ℚ) / ((|d - b| : ℤ) : ℚ)) := by
    rw [hcaQ, hdbQ]
    rcases (show (if b < d then (1 : ℤ) else -1) = 1 ∨ (if b < d then (1 : ℤ) else -1) = -1
        from by split <;> [exact Or.inl rfl; exact Or.inr rfl]) with h | h <;>
    rcases (show (if a < c then (1 : ℤ) else -1) = 1 ∨ (if a < c then (1 : ℤ) else -1) = -1
        from by split <;> [exact Or.inl rfl; exact Or.inr rfl]) with h' | h' <;>
      rw [h, h'] <;> push_cast [-Int.cast_abs] <;> field_simp <;> ring
  rw [hkey]
  exact line_round_eq _ _ _ _ _ hp hodd
    (by split <;> [exact Or.inl rfl; exact Or.inr rfl])

/-- C3 (amended): for distinct integer-aligned endpoints whose dominant-axis
span `max(|dx|,|dy|)` is odd (so that no ideal coordinate falls exactly on a
half-integer tie and rounding is unambiguous), `bresenham_line` and
`step_by_step` return the same set of pixels.  The counterexample shows the
claim fails as stated for even spans, where the two algorithms break
rounding ties in different directions. -/
theorem claim_C3_amended (a b c d : ℤ) (hodd : Odd (max |c - a| |d - b|)) :
    ∀ z : ℤ × ℤ,
      z ∈ step_by_step ((a : ℚ), (b : ℚ)) ((c : ℚ), (d : ℚ)) ↔
        z ∈ bresenham_line ((a : ℚ), (b : ℚ)) ((c : ℚ), (d : ℚ)) := by
  intro z
  have hBL := bresenham_line_eq ((a : ℚ), (b : ℚ)) ((c : ℚ), (d : ℚ))
  simp only [rhaz_intCast] at hBL
  obtain ⟨l, hsome, hlen, hshallow, hsteep⟩ := bresLoop_run_gen a b c d |c - a| |d - b|
    (if a < c then 1 else -1) (if b < d then 1 else -1) rfl rfl rfl rfl
  rw [hsome, Option.getD_some] at hBL
  rw [hBL]
  rcases lt_trichotomy |d - b| |c - a| with hS | hE | hG
  · -- strict shallow: |dy| < |dx|
    have hp : 0 < |c - a| := lt_of_le_of_lt (abs_nonneg _) hS
    have hoddc : Odd |c - a| := by rwa [max_eq_left (le_of_lt hS)] at hodd
    have hne : c - a ≠ 0 := by
      intro h0
      rw [h0, abs_zero] at hp
      omega
    have hdxQ : (c : ℚ) - (a : ℚ) ≠ 0 := by
      rw [show (c : ℚ) - (a : ℚ) = ((c - a : ℤ) : ℚ) by push_cast; ring]
      exact_mod_cast hne
    have hcdQ : |(d : ℚ) - (b : ℚ)| < |(c : ℚ) - (a : ℚ)| := by
      rw [abs_cast_int d b, abs_cast_int c a]
      exact_mod_cast hS
    rw [sbs_int_shallow a b c d hcdQ hdxQ, rhaz_if_min, rhaz_if_max,
      hshallow (le_of_lt hS), mem_map_intRange, mem_map_range]
    constructor
    · rintro ⟨x, hx1, hx2, rfl⟩
      by_cases hac : a < c
      · rw [if_pos hac] at hx1 hx2
        have habs : |c - a| = c - a := abs_of_pos (by omega)
        refine ⟨(x - a).toNat, by omega, ?_⟩
        have hxa : ((x - a).toNat : ℤ) = x - a := Int.toNat_of_nonneg (by omega)
        have hval := sbs_val_shallow a b c d (x - a) hp hoddc
        rw [show a + (x - a) * (if a < c then 1 else -1) = x by rw [if_pos hac]; ring] at hval
        rw [hxa]
        refine Prod.ext_iff.mpr ⟨?_, ?_⟩
        · rw [if_pos hac]
          ring
        · rw [hval]
          ring
      · rw [if_neg hac] at hx1 hx2
        have habs : |c - a| = a - c := by
          rw [abs_of_nonpos (by omega)]
          ring
        refine ⟨(a - x).toNat, by omega, ?_⟩
        have hxa : ((a - x).toNat : ℤ) = a - x := Int.toNat_of_nonneg (by omega)
        have hval := sbs_val_shallow a b c d (a - x) hp hoddc
        rw [show a + (a - x) * (if a < c then 1 else -1) = x by rw [if_neg hac]; ring] at hval
        rw [hxa]
        refine Prod.ext_iff.mpr ⟨?_, ?_⟩
        · rw [if_neg hac]
          ring
        · rw [hval]
          ring
    · rintro ⟨i, hi, rfl⟩
      refine ⟨a + (i : ℤ) * (if a < c then 1 else -1), ?_, ?_, ?_⟩
      · by_cases hac : a < c
        · rw [if_pos hac, if_pos hac]
          omega
        · rw [if_neg hac, if_neg hac]
          have habs : |c - a| = a - c := by
            rw [abs_of_nonpos (by omega)]
            ring
          omega
      · by_cases hac : a < c
        · rw [if_pos hac, if_pos hac]
          have habs : |c - a| = c - a := abs_of_pos (by omega)
          omega
        · rw [if_neg hac, if_neg hac]
          omega
      · have hval := sbs_val_shallow a b c d (i : ℤ) hp hoddc
        refine Prod.ext_iff.mpr ⟨rfl, ?_⟩
        rw [hval]
        ring
  · -- diagonal: |dy| = |dx|, both positive since the max is odd
    have hp : 0 < |c - a| := by
      rcases hodd with ⟨m, hm⟩
      have h0 : max |c - a| |d - b| = |c - a| := by rw [hE]; exact max_self _
      have h1 := abs_nonneg (c - a)
      omega
    have hpD : 0 < |d - b| := by omega
    have hoddc : Odd |c - a| := by
      rwa [max_eq_left (le_of_eq hE)] at hodd
    have hoddD : Odd |d - b| := by rwa [← hE] at hoddc
    have hneD : d - b ≠ 0 := by
      intro h0
      rw [h0, abs_zero] at hpD
      omega
    have hdyQ : (d : ℚ) - (b : ℚ) ≠ 0 := by
      rw [show (d : ℚ) - (b : ℚ) = ((d - b : ℤ) : ℚ) by push_cast; ring]
      exact_mod_cast hneD
    have hcdQ : ¬(|(d : ℚ) - (b : ℚ)| < |(c : ℚ) - (a : ℚ)|) := by
      rw [abs_cast_int d b, abs_cast_int c a]
      rw [hE]
      exact lt_irrefl _
    have hdiagB : ∀ j : ℤ, bresB |c - a| |d - b| j = j := by
      intro j
      rw [show |d - b| = |c - a| from hE, bresB_diag _ _ hp]
    have hdiagB2 : ∀ j : ℤ, bresB |d - b| |c - a| j = j := by
      intro j
      rw [show |d - b| = |c - a| from hE, bresB_diag _ _ hp]
    rw [sbs_int_steep a b c d hcdQ hdyQ, rhaz_if_min, rhaz_if_max,
      hshallow (le_of_eq hE), mem_map_intRange, mem_map_range]
    constructor
    · rintro ⟨y, hy1, hy2, rfl⟩
      by_cases hbd : b < d
      · rw [if_pos hbd] at hy1 hy2
        have habs : |d - b| = d - b := abs_of_pos (by omega)
        refine ⟨(y - b).toNat, by omega, ?_⟩
        have hyb : ((y - b).toNat : ℤ) = y - b := Int.toNat_of_nonneg (by omega)
        have hval := sbs_val_steep a b c d (y - b) hpD hoddD
        rw [show b + (y - b) * (if b < d then 1 else -1) = y by rw [if_pos hbd]; ring] at hval
        rw [hyb, Prod.mk.injEq]
        refine ⟨?_, ?_⟩
        · rw [hval, hdiagB2]
          ring
        · rw [hdiagB, if_pos hbd]
          ring
      · rw [if_neg hbd] at hy1 hy2
        have habs : |d - b| = b - d := by
          rw [abs_of_nonpos (by omega)]
          ring
        refine ⟨(b - y).toNat, by omega, ?_⟩
        have hyb : ((b - y).toNat : ℤ) = b - y := Int.toNat_of_nonneg (by omega)
        have hval := sbs_val_steep a b c d (b - y) hpD hoddD
        rw [show b + (b - y) * (if b < d then 1 else -1) = y by rw [if_neg hbd]; ring] at hval
        rw [hyb, Prod.mk.injEq]
        refine ⟨?_, ?_⟩
        · rw [hval, hdiagB2]
          ring
        · rw [hdiagB, if_neg hbd]
          ring
    · rintro ⟨i, hi, rfl⟩
      refine ⟨b + (i : ℤ) * (if b < d then 1 else -1), ?_, ?_, ?_⟩
      · by_cases hbd : b < d
        · rw [if_pos hbd, if_pos hbd]
          omega
        · rw [if_neg hbd, if_neg hbd]
          have habs : |d - b| = b - d := by
            rw [abs_of_nonpos (by omega)]
            ring
          rw [show |c - a| = |d - b| from hE.symm] at hi
          omega
      · by_cases hbd : b < d
        · rw [if_pos hbd, if_pos hbd]
          have habs : |d - b| = d - b := abs_of_pos (by omega)
          rw [show |c - a| = |d - b| from hE.symm] at hi
          omega
        · rw [if_neg hbd, if_neg hbd]
          omega
      · have hval := sbs_val_steep a b c d (i : ℤ) hpD hoddD
        rw [Prod.mk.injEq]
        refine ⟨?_, ?_⟩
        · rw [hval, hdiagB2]
          ring
        · rw [hdiagB]
  · -- strict steep: |dx| < |dy|
    have hp : 0 < |d - b| := lt_of_le_of_lt (abs_nonneg _) hG
    have hoddD : Odd |d - b| := by rwa [max_eq_right (le_of_lt hG)] at hodd
    have hneD : d - b ≠ 0 := by
      intro h0
      rw [h0, abs_zero] at hp
      omega
    have hdyQ : (d : ℚ) - (b : ℚ) ≠ 0 := by
      rw [show (d : ℚ) - (b : ℚ) = ((d - b : ℤ) : ℚ) by push_cast; ring]
      exact_mod_cast hneD
    have hcdQ : ¬(|(d : ℚ) - (b : ℚ)| < |(c : ℚ) - (a : ℚ)|) := by
      rw [abs_cast_int d b, abs_cast_int c a]
      intro hcontra
      have h2 : |d - b| < |c - a| := by exact_mod_cast hcontra
      omega
    rw [sbs_int_steep a b c d hcdQ hdyQ, rhaz_if_min, rhaz_if_max,
      hsteep hG, mem_map_intRange, mem_map_range]
    constructor
    · rintro ⟨y, hy1, hy2, rfl⟩
      by_cases hbd : b < d
      · rw [if_pos hbd] at hy1 hy2
        have habs : |d - b| = d - b := abs_of_pos (by omega)
        refine ⟨(y - b).toNat, by omega, ?_⟩
        have hyb : ((y - b).toNat : ℤ) = y - b := Int.toNat_of_nonneg (by omega)
        have hval := sbs_val_steep a b c d (y - b) hp hoddD
        rw [show b + (y - b) * (if b < d then 1 else -1) = y by rw [if_pos hbd]; ring] at hval
        rw [hyb]
        refine Prod.ext_iff.mpr ⟨?_, ?_⟩
        · rw [hval]
          ring
        · rw [if_pos hbd]
          ring
      · rw [if_neg hbd] at hy1 hy2
        have habs : |d - b| = b - d := by
          rw [abs_of_nonpos (by omega)]
          ring
        refine ⟨(b - y).toNat, by omega, ?_⟩
        have hyb : ((b - y).toNat : ℤ) = b - y := Int.toNat_of_nonneg (by omega)
        have hval := sbs_val_steep a b c d (b - y) hp hoddD
        rw [show b + (b - y) * (if b < d then 1 else -1) = y by rw [if_neg hbd]; ring] at hval
        rw [hyb]
        refine Prod.ext_iff.mpr ⟨?_, ?_⟩
        · rw [hval]
          ring
        · rw [if_neg hbd]
          ring
    · rintro ⟨i, hi, rfl⟩
      refine ⟨b + (i : ℤ) * (if b < d then 1 else -1), ?_, ?_, ?_⟩
      · by_cases hbd : b < d
        · rw [if_pos hbd, if_pos hbd]
          omega
        · rw [if_neg hbd, if_neg hbd]
          have habs : |d - b| = b - d := by
            rw [abs_of_nonpos (by omega)]
            ring
          omega
      · by_cases hbd : b < d
        · rw [if_pos hbd, if_pos hbd]
          have habs : |d - b| = d - b := abs_of_pos (by omega)
          omega
        · rw [if_neg hbd, if_neg hbd]
          omega
      · have hval := sbs_val_steep a b c d (i : ℤ) hp hoddD
        refine Prod.ext_iff.mpr ⟨?_, rfl⟩
        rw [hval]
        ring

/-- C3 counterexample: at the integer endpoints (0, -2) and (2, -1) the
dominant span is even and the ideal line passes through a half-integer tie
at x = 1.  `bresenham_line` resolves the tie toward the y-step and contains
the pixel (1, -1), while `step_by_step` rounds half away from zero and
yields (1, -2) instead, so the two pixel sets differ and the claim fails as
stated. -/
theorem claim_C3_counterexample :
    (((1 : ℤ), (-1 : ℤ)) ∈
        bresenham_line (((0 : ℤ) : ℚ), ((-2 : ℤ) : ℚ)) (((2 : ℤ) : ℚ), ((-1 : ℤ) : ℚ))) ∧
      ¬(((1 : ℤ), (-1 : ℤ)) ∈
        step_by_step (((0 : ℤ) : ℚ), ((-2 : ℤ) : ℚ)) (((2 : ℤ) : ℚ), ((-1 : ℤ) : ℚ))) := by
  constructor
  · have hBL := bresenham_line_eq (((0 : ℤ) : ℚ), ((-2 : ℤ) : ℚ)) (((2 : ℤ) : ℚ), ((-1 : ℤ) : ℚ))
    simp only [rhaz_intCast] at hBL
    rw [hBL]
    decide
  · rw [sbs_int_shallow 0 (-2) 2 (-1) (by norm_num) (by norm_num), rhaz_if_min, rhaz_if_max]
    have h02 : ((0 : ℤ) < 2) := by norm_num
    rw [if_pos h02, if_pos h02, show intRange (0 : ℤ) 2 = [0, 1, 2] from rfl]
    simp only [List.map_cons, List.map_nil, List.mem_cons, List.not_mem_nil, or_false,
      Prod.mk.injEq]
    rintro (⟨h1, -⟩ | ⟨-, h2⟩ | ⟨h1, -⟩)
    · norm_num at h1
    · norm_num [rhaz] at h2
    · norm_num at h1

/-- C3 witness: the amended theorem applied at the endpoints (0, 0) and
(3, 1), whose dominant span 3 is odd, at the pixel (2, 1). -/
theorem claim_C3_witness :
    Odd (max |(3 : ℤ) - (0 : ℤ)| |(1 : ℤ) - (0 : ℤ)|) ∧
      ((((2 : ℤ), (1 : ℤ)) : ℤ × ℤ) ∈
          step_by_step (((0 : ℤ) : ℚ), ((0 : ℤ) : ℚ)) (((3 : ℤ) : ℚ), ((1 : ℤ) : ℚ)) ↔
        (((2 : ℤ), (1 : ℤ)) : ℤ × ℤ) ∈
          bresenham_line (((0 : ℤ) : ℚ), ((0 : ℤ) : ℚ)) (((3 : ℤ) : ℚ), ((1 : ℤ) : ℚ))) :=
  ⟨by decide, claim_C3_amended 0 0 3 1 (by decide) ((2 : ℤ), (1 : ℤ))⟩
